import Mathlib

/-!
# Verification of the Quacky-DENUE ingestion pipeline core

A shallow embedding, in Lean 4, of the pure computational core of the
`quacky_denue` Python package (retry helper, link discovery post-processing,
data-member selection, region-code parsing, badge validation, schema
normalization and the per-link orchestration loop), together with theorems
settling the specification claims about it.

Conventions of the embedding:
* Python `int` values become `Int`; non-negative sizes become `Nat`.
* `float` delays become `Rat` (the delays computed by the code are exact
  binary multiples of the base delay, so rationals are faithful).
* Fallible code returns `Except String _`; external effects (network,
  browser, filesystem, clock) are passed in as explicit oracle data.
* A pandas `DataFrame` is a column-name list plus positional rows of cells.
-/

namespace QuackyDenue

/-! ## Retry helper — src/quacky_denue/retry.py -/

/-- Outcome of a `retry` run: a value, a re-raised operation error, or the
`AssertionError` from `assert last_error is not None`. -/
inductive RetryResult (ε τ : Type) : Type
  | ok (t : τ)
  | raised (e : ε)
  | assertFail
  deriving DecidableEq, Repr

/-- Observable trace of one `retry` run: final result, number of calls made
to the operation, and the list of delays slept (in order). -/
structure RetryOut (ε τ : Type) : Type where
  result : RetryResult ε τ
  calls : Nat
  sleeps : List Rat
  deriving DecidableEq, Repr

/-- Boolean test that an `Except` value is an error. -/
def exceptIsError {ε τ : Type} : Except ε τ → Bool
  | .error _ => true
  | .ok _ => false

/-- The `while attempt < retries` loop of `retry`, with the operation `fn`
indexed by the (1-based) attempt number, `fuel = retries - attempt`
remaining iterations, and the captured `last_error`.  Each failed attempt
that is not the final one sleeps `base_delay_seconds * 2 ** (attempt - 1)`
(the exponent uses the already-incremented attempt counter). -/
def retryFrom {ε τ : Type} (fn : Nat → Except ε τ) (base : Rat) :
    Nat → Nat → Option ε → RetryOut ε τ
  | 0, _, last =>
    ⟨match last with
      | some e => .raised e
      | none => .assertFail, 0, []⟩
  | fuel + 1, attempt, _ =>
    match fn (attempt + 1) with
    | .ok v => ⟨.ok v, 1, []⟩
    | .error e =>
      let r := retryFrom fn base fuel (attempt + 1) (some e)
      ⟨r.result, r.calls + 1, (if 0 < fuel then [base * 2 ^ attempt] else []) ++ r.sleeps⟩

/-- `retry(operation_name, fn, retries, base_delay_seconds)`: run `fn` with
bounded exponential backoff.  `retries` is a Python `int` and the loop body
runs `max(retries, 0)` times, so the fuel is `retries.toNat`. -/
def retry {ε τ : Type} (fn : Nat → Except ε τ) (retries : Int) (base : Rat) : RetryOut ε τ :=
  retryFrom fn base retries.toNat 0 none

lemma retryFrom_success {ε τ : Type} (fn : Nat → Except ε τ) (base : Rat) :
    ∀ (fuel attempt : Nat) (last : Option ε) (j : Nat) (v : τ),
      attempt < j → j ≤ attempt + fuel → fn j = .ok v →
      (∀ i, attempt < i → i < j → exceptIsError (fn i) = true) →
      retryFrom fn base fuel attempt last =
        ⟨.ok v, j - attempt, (List.range (j - attempt - 1)).map fun k => base * 2 ^ (attempt + k)⟩ := by
  intro fuel
  induction fuel with
  | zero => intro attempt last j v h1 h2 _ _; omega
  | succ f ih =>
    intro attempt last j v h1 h2 hok hfail
    rw [retryFrom]
    rcases hcur : fn (attempt + 1) with e | w
    · -- the current attempt fails; the success is strictly later
      have hj : attempt + 1 < j := by
        rcases Nat.lt_or_ge (attempt + 1) j with h | h
        · exact h
        · have : j = attempt + 1 := by omega
          rw [this, hcur] at hok; cases hok
      have hrec := ih (attempt + 1) (some e) j v hj (by omega) hok
        (fun i hi1 hi2 => hfail i (by omega) hi2)
      simp only [hrec]
      have hfuel : 0 < f := by omega
      have hrange : j - attempt - 1 = (j - (attempt + 1) - 1) + 1 := by omega
      refine congrArg₂ (RetryOut.mk _) (by omega) ?_
      rw [hrange, List.range_succ_eq_map, if_pos hfuel]
      simp only [List.map_cons, List.map_map, List.singleton_append, pow_zero,
        Nat.add_zero, List.cons.injEq]
      constructor
      · trivial
      · refine List.map_congr_left fun k _ => ?_
        simp [Function.comp, Nat.add_assoc, Nat.add_comm 1 k]
    · -- the current attempt succeeds, so it is the success attempt
      have hj : j = attempt + 1 := by
        by_contra hne
        have : attempt + 1 < j := by omega
        have := hfail (attempt + 1) (by omega) this
        rw [hcur] at this; simp [exceptIsError] at this
      subst hj
      rw [hcur] at hok
      injection hok with hv
      subst hv
      simp

lemma retryFrom_exhaust {ε τ : Type} (fn : Nat → Except ε τ) (base : Rat) :
    ∀ (fuel attempt : Nat) (last : Option ε) (e : ε),
      0 < fuel →
      (∀ i, attempt < i → i ≤ attempt + fuel → exceptIsError (fn i) = true) →
      fn (attempt + fuel) = .error e →
      retryFrom fn base fuel attempt last =
        ⟨.raised e, fuel, (List.range (fuel - 1)).map fun k => base * 2 ^ (attempt + k)⟩ := by
  intro fuel
  induction fuel with
  | zero => intro _ _ _ h _ _; omega
  | succ f ih =>
    intro attempt last e _ hfail hlast
    rw [retryFrom]
    rcases Nat.eq_zero_or_pos f with hf | hf
    · subst hf
      rw [show attempt + 1 = attempt + 0 + 1 from rfl] at hlast
      simp only [Nat.add_zero] at hlast
      rw [hlast]
      simp [retryFrom]
    · have hcurErr := hfail (attempt + 1) (by omega) (by omega)
      rcases hcur : fn (attempt + 1) with e' | w
      · have hrec := ih (attempt + 1) (some e') e hf
          (fun i hi1 hi2 => hfail i (by omega) (by omega))
          (by rw [show attempt + 1 + f = attempt + (f + 1) from by omega]; exact hlast)
        simp only [hrec]
        refine congrArg₂ (RetryOut.mk _) (by omega) ?_
        rw [if_pos hf, show f + 1 - 1 = (f - 1) + 1 from by omega, List.range_succ_eq_map]
        simp only [List.map_cons, List.map_map, List.singleton_append, pow_zero,
          Nat.add_zero, List.cons.injEq]
        constructor
        · trivial
        · refine List.map_congr_left fun k _ => ?_
          simp [Function.comp, Nat.add_assoc, Nat.add_comm 1 k]
      · rw [hcur] at hcurErr; simp [exceptIsError] at hcurErr

/-- C3: `retry` calls the operation until it returns without raising, at
most `max_attempts` times; the delay slept before attempt `k+1` equals
`base_delay * 2^(k-1)`; no sleep occurs after the final attempt (the trace
holds exactly `calls - 1` sleeps, for the non-final failed attempts); on
exhaustion the error captured from the last attempt is re-raised; on a
successful attempt its result is returned and the operation is not called
again. -/
theorem retry_backoff_spec {ε τ : Type} (fn : Nat → Except ε τ) (n : Nat) (base : Rat)
    (h : 1 ≤ n) :
    (∀ j v, 1 ≤ j → j ≤ n → fn j = .ok v →
      (∀ i, 1 ≤ i → i < j → exceptIsError (fn i) = true) →
      retry fn (n : Int) base =
        ⟨.ok v, j, (List.range (j - 1)).map fun k => base * 2 ^ k⟩) ∧
    (∀ e, (∀ i, 1 ≤ i → i ≤ n → exceptIsError (fn i) = true) → fn n = .error e →
      retry fn (n : Int) base =
        ⟨.raised e, n, (List.range (n - 1)).map fun k => base * 2 ^ k⟩) := by
  have htn : (n : Int).toNat = n := Int.toNat_natCast n
  constructor
  · intro j v hj1 hj2 hok hfail
    rw [retry, htn]
    have := retryFrom_success fn base n 0 none j v (by omega) (by omega) hok
      (fun i hi1 hi2 => hfail i (by omega) hi2)
    simpa using this
  · intro e hfail hlast
    rw [retry, htn]
    have := retryFrom_exhaust fn base n 0 none e (by omega)
      (fun i hi1 hi2 => hfail i (by omega) (by omega)) (by simpa using hlast)
    simpa using this

/-- Witness for the C3 theorem at a concrete operation: with
`fn 1 = error`, `fn 2 = ok 42`, three allowed attempts and base delay 1,
the run returns 42 after 2 calls having slept once for `1 * 2^0 = 1`. -/
theorem retry_backoff_spec_witness :
    retry (fun i => if i < 2 then (Except.error "boom" : Except String Nat) else .ok 42)
      (3 : Int) 1 = ⟨.ok 42, 2, [1]⟩ := by
  have h := (retry_backoff_spec
      (fun i => if i < 2 then (Except.error "boom" : Except String Nat) else .ok 42)
      3 1 (by norm_num)).1 2 42 (by norm_num) (by norm_num) (by norm_num)
      (fun i h1 h2 => by
        have : i = 1 := by omega
        subst this; rfl)
  simpa using h

/-- C10: calling `retry` with a non-positive `retries` never invokes the
operation, performs no sleep, and fails the internal
`assert last_error is not None` (an `AssertionError`) instead of returning
or re-raising an operation error. -/
theorem retry_nonpositive_asserts {ε τ : Type} (fn : Nat → Except ε τ) (retries : Int)
    (base : Rat) (h : retries ≤ 0) :
    retry fn retries base = ⟨.assertFail, 0, []⟩ := by
  rw [retry, Int.toNat_of_nonpos h]
  rfl

/-- Witness for the C10 theorem at `retries = -1`. -/
theorem retry_nonpositive_asserts_witness :
    retry (fun _ => (Except.error "boom" : Except String Nat)) (-1 : Int) 1 =
      ⟨.assertFail, 0, []⟩ :=
  retry_nonpositive_asserts _ (-1) 1 (by norm_num)

/-! ## Generic string helpers shared by several modules

Lean's built-in `String` order, `trim`, `toLower` and `toInt?` are
byte-position based and do not reduce inside the kernel, so the embedding
works on the underlying character lists with its own executable
primitives.  Python compares strings by code points, which is exactly the
lexicographic order on `Char.toNat`. -/

/-- `pat` occurs as a contiguous substring of `l` (the `in` operator on
Python strings). -/
def listInfix (pat : List Char) : List Char → Bool
  | [] => pat.isEmpty
  | c :: rest => pat.isPrefixOf (c :: rest) || listInfix pat rest

/-- Code-point lexicographic `≤` on character lists — the order Python uses
to compare `str` values. -/
def lexLe : List Char → List Char → Bool
  | [], _ => true
  | _ :: _, [] => false
  | a :: s, b :: t =>
    if a.toNat < b.toNat then true
    else if b.toNat < a.toNat then false
    else lexLe s t

/-- Python string `≤` (code-point lexicographic). -/
def pyStrLe (x y : String) : Bool := lexLe x.data y.data

/-- Python `str.lower()` (ASCII-relevant part of it). -/
def pyLower (s : String) : String := String.mk (s.data.map Char.toLower)

/-- Python `str.strip()` with no argument: drop whitespace from both ends. -/
def trimWs (cs : List Char) : List Char :=
  ((cs.dropWhile Char.isWhitespace).reverse.dropWhile Char.isWhitespace).reverse

/-- Python `str.strip()` on strings. -/
def pyTrim (s : String) : String := String.mk (trimWs s.data)

lemma lexLe_refl : ∀ cs : List Char, lexLe cs cs = true := by
  intro cs
  induction cs with
  | nil => rfl
  | cons a s ih => simp [lexLe, ih]

lemma lexLe_total : ∀ x y : List Char, lexLe x y = true ∨ lexLe y x = true := by
  intro x
  induction x with
  | nil => intro y; left; rfl
  | cons a s ih =>
    intro y
    cases y with
    | nil => right; rfl
    | cons b t =>
      rw [lexLe, lexLe]
      rcases Nat.lt_trichotomy a.toNat b.toNat with h | h | h
      · left; rw [if_pos h]
      · rw [if_neg (by omega), if_neg (by omega), if_neg (by omega), if_neg (by omega)]
        exact ih t
      · right; rw [if_pos h]

lemma lexLe_trans : ∀ x y z : List Char,
    lexLe x y = true → lexLe y z = true → lexLe x z = true := by
  intro x
  induction x with
  | nil => intros; rfl
  | cons a s ih =>
    intro y z hxy hyz
    cases y with
    | nil => rw [lexLe] at hxy; cases hxy
    | cons b t =>
      cases z with
      | nil => rw [lexLe] at hyz; cases hyz
      | cons c u =>
        rw [lexLe] at hxy hyz ⊢
        rcases Nat.lt_trichotomy a.toNat b.toNat with hab | hab | hab
        · rcases Nat.lt_trichotomy b.toNat c.toNat with hbc | hbc | hbc
          · rw [if_pos (by omega)]
          · rw [if_pos (by omega)]
          · rw [if_neg (by omega), if_pos hbc] at hyz; cases hyz
        · rcases Nat.lt_trichotomy b.toNat c.toNat with hbc | hbc | hbc
          · rw [if_pos (by omega)]
          · rw [if_neg (by omega), if_neg (by omega)]
            rw [if_neg (by omega), if_neg (by omega)] at hxy
            rw [if_neg (by omega), if_neg (by omega)] at hyz
            exact ih t u hxy hyz
          · rw [if_neg (by omega), if_pos hbc] at hyz; cases hyz
        · rw [if_neg (by omega), if_pos hab] at hxy; cases hxy

lemma pyStrLe_refl (x : String) : pyStrLe x x = true := lexLe_refl x.data

lemma pyStrLe_total (x y : String) : pyStrLe x y = true ∨ pyStrLe y x = true :=
  lexLe_total x.data y.data

lemma pyStrLe_trans {x y z : String}
    (h1 : pyStrLe x y = true) (h2 : pyStrLe y z = true) : pyStrLe x z = true :=
  lexLe_trans x.data y.data z.data h1 h2

/-- Insert into a sorted list, keeping earlier-inserted equal elements
first (the stability of Python `sorted`). -/
def insertSorted (a : String) : List String → List String
  | [] => [a]
  | b :: t => if pyStrLe a b then a :: b :: t else b :: insertSorted a t

/-- Model of Python `sorted` on strings: a stable ascending sort by
code-point lexicographic order (insertion sort). -/
def pySort : List String → List String
  | [] => []
  | a :: t => insertSorted a (pySort t)

lemma insertSorted_ne_nil (a : String) (l : List String) : insertSorted a l ≠ [] := by
  cases l with
  | nil => simp [insertSorted]
  | cons b t =>
    rw [insertSorted]
    split <;> simp

lemma pySort_eq_nil_iff (l : List String) : pySort l = [] ↔ l = [] := by
  cases l with
  | nil => simp [pySort]
  | cons a t => simp [pySort, insertSorted_ne_nil]

/-- The head of the sorted list is a least element of the input. -/
lemma pySort_headD_min (l : List String) (h : l ≠ []) :
    (pySort l).headD "" ∈ l ∧ ∀ y ∈ l, pyStrLe ((pySort l).headD "") y = true := by
  induction l with
  | nil => exact absurd rfl h
  | cons a t ih =>
    rcases eq_or_ne t [] with ht | ht
    · subst ht
      simp [pySort, insertSorted, pyStrLe_refl]
    · obtain ⟨hmem, hmin⟩ := ih ht
      have hsort : pySort t ≠ [] := by
        rw [ne_eq, pySort_eq_nil_iff]; exact ht
      obtain ⟨b, s, hbs⟩ := List.exists_cons_of_ne_nil hsort
      have hb : (pySort t).headD "" = b := by rw [hbs]; rfl
      rw [pySort, hbs, insertSorted]
      by_cases hab : pyStrLe a b = true
      · rw [if_pos hab]
        refine ⟨List.mem_cons_self a t, ?_⟩
        intro y hy
        rcases List.mem_cons.mp hy with hy | hy
        · rw [hy]; exact pyStrLe_refl a
        · exact pyStrLe_trans hab (hb ▸ hmin y hy)
      · rw [if_neg hab]
        refine ⟨List.mem_cons_of_mem a (hb ▸ hmem), ?_⟩
        intro y hy
        rcases List.mem_cons.mp hy with hy | hy
        · subst hy
          rcases pyStrLe_total b y with h2 | h2
          · exact h2
          · exact absurd h2 (by simpa using hab)
        · exact hb ▸ hmin y hy

/-! ## Badge validation — src/quacky_denue/discovery.py, validate_link_count -/

/-- Value of a decimal digit list, most significant first. -/
def digitsVal (cs : List Char) : Nat :=
  cs.foldl (fun acc c => acc * 10 + (c.toNat - 48)) 0

/-- Parse a non-empty all-digit character list. -/
def parseNatDigits (cs : List Char) : Option Nat :=
  if cs.isEmpty then none
  else if cs.all Char.isDigit then some (digitsVal cs) else none

/-- Model of Python `int(s)`: strip surrounding whitespace, accept one
optional sign, then a non-empty run of decimal digits; anything else
raises `ValueError` (here `none`).  (Underscore digit grouping and
non-ASCII digits, which CPython also accepts, are out of scope.) -/
def pyInt (s : String) : Option Int :=
  match trimWs s.data with
  | '+' :: rest => (parseNatDigits rest).map Int.ofNat
  | '-' :: rest => (parseNatDigits rest).map (fun n => -(n : Int))
  | t => (parseNatDigits t).map Int.ofNat

/-- `validate_link_count(config, discovered_count)`: the browser effects are
abstracted into `badge`: `none` models the `TimeoutError` path (the badge
element could not be read), `some raw` the text read from
`span#badge_denue`.  The code strips the text, parses it as an int (a
`ValueError` also yields `true` with a warning), and compares
`max(badge - 2, 0)` with the discovered count. -/
def validate_link_count (badge : Option String) (discovered : Int) : Bool :=
  match badge with
  | none => true
  | some raw =>
    match pyInt (pyTrim raw) with
    | none => true
    | some n => max (n - 2) 0 == discovered

/-- C4 (amended): `validate_link_count` returns true exactly when the badge
cannot be read, or its text does not parse as an integer, or
`max(badge - 2, 0)` — not `badge - 2` itself — equals the discovered count;
in particular badge text `"5"` validates discovered count 3 as true and
4 and 5 as false. -/
theorem validate_link_count_correct (discovered : Int) :
    (validate_link_count none discovered = true) ∧
    (∀ s, pyInt (pyTrim s) = none → validate_link_count (some s) discovered = true) ∧
    (∀ s n, pyInt (pyTrim s) = some n →
      (validate_link_count (some s) discovered = true ↔ max (n - 2) 0 = discovered)) ∧
    (validate_link_count (some "5") 3 = true ∧
     validate_link_count (some "5") 4 = false ∧
     validate_link_count (some "5") 5 = false) := by
  refine ⟨rfl, ?_, ?_, by decide⟩
  · intro s hs
    simp [validate_link_count, hs]
  · intro s n hs
    simp [validate_link_count, hs]

/-- Witness for the C4 theorem: badge text `"5"` against discovered count 3
is accepted, via the parsed-badge case of the theorem. -/
theorem validate_link_count_correct_witness :
    validate_link_count (some "5") 3 = true := by
  have h := (validate_link_count_correct 3).2.2.1 "5" 5 (by decide)
  exact h.mpr (by decide)

/-- C4 counterexample: with badge text `"1"` and discovered count 0 the
function returns true although `1 - 2 = -1 ≠ 0` — the code clamps the
expected count at zero, so "true exactly when badge minus 2 equals the
count" is false as stated. -/
theorem validate_link_count_claim_false :
    validate_link_count (some "1") 0 = true ∧ ((1 : Int) - 2 ≠ 0) := by decide

/-! ## Data-member selection — src/quacky_denue/reader.py, _select_data_csv -/

/-- Member name ends in `.csv` (case-insensitively). -/
def isCsvName (x : String) : Bool := ".csv".data.isSuffixOf (pyLower x).data

/-- Member name carries both the combined-data marker `"conjunto"` and the
data marker `"datos"` (case-insensitively). -/
def isConjuntoDatos (x : String) : Bool :=
  listInfix "conjunto".data (pyLower x).data && listInfix "datos".data (pyLower x).data

/-- Member name is flagged as a dictionary file (contains
`"diccionario"`, case-insensitively). -/
def isDiccionario (x : String) : Bool := listInfix "diccionario".data (pyLower x).data

/-- `_select_data_csv(archive_names)`: choose the data member of the
archive, raising `ValueError` when no `.csv` member exists. -/
def selectDataCsv (archive_names : List String) : Except String String :=
  let csv_files := archive_names.filter isCsvName
  if csv_files.isEmpty then .error "No DENUE csv file found in zip"
  else
    let conjunto_candidates := csv_files.filter isConjuntoDatos
    if !conjunto_candidates.isEmpty then .ok ((pySort conjunto_candidates).headD "")
    else
      let non_dictionary_candidates := csv_files.filter (fun x => !(isDiccionario x))
      if !non_dictionary_candidates.isEmpty then .ok ((pySort non_dictionary_candidates).headD "")
      else .ok ((pySort csv_files).headD "")

/-- C5: data-member selection picks, in priority order, the
lexicographically least `.csv` member with both the combined-data and data
markers; else the least `.csv` member not flagged as a dictionary; else the
least `.csv` member; and errors out when no `.csv` member exists.  The
concrete example of the spec is included as the final conjunct. -/
theorem select_data_csv_spec (names : List String) :
    (names.filter isCsvName = [] →
      selectDataCsv names = .error "No DENUE csv file found in zip") ∧
    ((names.filter isCsvName).filter isConjuntoDatos ≠ [] →
      ∃ m, selectDataCsv names = .ok m ∧
        m ∈ (names.filter isCsvName).filter isConjuntoDatos ∧
        ∀ y ∈ (names.filter isCsvName).filter isConjuntoDatos, pyStrLe m y = true) ∧
    ((names.filter isCsvName).filter isConjuntoDatos = [] →
      (names.filter isCsvName).filter (fun x => !(isDiccionario x)) ≠ [] →
      ∃ m, selectDataCsv names = .ok m ∧
        m ∈ (names.filter isCsvName).filter (fun x => !(isDiccionario x)) ∧
        ∀ y ∈ (names.filter isCsvName).filter (fun x => !(isDiccionario x)),
          pyStrLe m y = true) ∧
    ((names.filter isCsvName).filter isConjuntoDatos = [] →
      (names.filter isCsvName).filter (fun x => !(isDiccionario x)) = [] →
      names.filter isCsvName ≠ [] →
      ∃ m, selectDataCsv names = .ok m ∧
        m ∈ names.filter isCsvName ∧
        ∀ y ∈ names.filter isCsvName, pyStrLe m y = true) ∧
    (selectDataCsv ["diccionario_de_datos.csv", "denue_09_2020.csv", "extra.txt"] =
      .ok "denue_09_2020.csv") := by
  refine ⟨?_, ?_, ?_, ?_, by rfl⟩
  · intro h
    rw [selectDataCsv]
    simp [h]
  · intro h
    obtain ⟨hmem, hmin⟩ := pySort_headD_min _ h
    refine ⟨_, ?_, hmem, hmin⟩
    rw [selectDataCsv]
    have hcsv : ¬(names.filter isCsvName).isEmpty = true := by
      intro hc
      rw [List.isEmpty_iff] at hc
      rw [hc] at h
      simp at h
    simp only [if_neg hcsv]
    rw [if_pos (by simpa using h)]
  · intro hconj h
    obtain ⟨hmem, hmin⟩ := pySort_headD_min _ h
    refine ⟨_, ?_, hmem, hmin⟩
    rw [selectDataCsv]
    have hcsv : ¬(names.filter isCsvName).isEmpty = true := by
      intro hc
      rw [List.isEmpty_iff] at hc
      rw [hc] at h
      simp at h
    simp only [if_neg hcsv]
    rw [if_neg (by simpa using hconj), if_pos (by simpa using h)]
  · intro hconj hnond h
    obtain ⟨hmem, hmin⟩ := pySort_headD_min _ h
    refine ⟨_, ?_, hmem, hmin⟩
    rw [selectDataCsv]
    have hcsv : ¬(names.filter isCsvName).isEmpty = true := by
      intro hc
      rw [List.isEmpty_iff] at hc
      exact h hc
    simp only [if_neg hcsv]
    rw [if_neg (by simpa using hconj), if_neg (by simpa using hnond)]

/-- Witness for the C5 theorem: the spec's concrete archive listing, whose
dictionary member is passed over in favour of the data member. -/
theorem select_data_csv_spec_witness :
    selectDataCsv ["diccionario_de_datos.csv", "denue_09_2020.csv", "extra.txt"] =
      .ok "denue_09_2020.csv" :=
  (select_data_csv_spec []).2.2.2.2

/-! ## Region-code parsing — src/quacky_denue/discovery.py, _parse_federation

`FEDERATION_PATTERN = denue_([0-9]{1,2}(?:-[0-9]{1,2})?)_` with
`re.IGNORECASE`, applied with `re.search` (leftmost match, greedy
quantifiers with backtracking). -/

/-- Strip a literal pattern prefix, comparing characters case-insensitively
(the effect of `re.IGNORECASE` on literal letters). -/
def stripPrefixCI : List Char → List Char → Option (List Char)
  | [], rest => some rest
  | _ :: _, [] => none
  | p :: ps, c :: cs => if p.toLower = c.toLower then stripPrefixCI ps cs else none

/-- Consume exactly `n` decimal digits, returning them and the remainder. -/
def takeDigits : Nat → List Char → Option (List Char × List Char)
  | 0, rest => some ([], rest)
  | _ + 1, [] => none
  | n + 1, c :: rest =>
    if c.isDigit then (takeDigits n rest).map fun p => (c :: p.1, p.2)
    else none

/-- Continuation helper: the literal `_` that closes the federation
pattern, returning the captured group `val`. -/
def underscoreNext (val : List Char) : List Char → Option (List Char)
  | [] => none
  | c :: _ => if c = '_' then some val else none

/-- After the first digit group `ds`, match the optional `-[0-9]{1,2}` (in
greedy backtracking order: two digits, one digit, absent) followed by the
closing underscore, returning the whole captured group. -/
def fedTail (ds : List Char) : List Char → Option (List Char)
  | [] => none
  | c :: r2 =>
    (if c = '-' then
      ((takeDigits 2 r2).bind fun p => underscoreNext (ds ++ '-' :: p.1) p.2) <|>
      ((takeDigits 1 r2).bind fun p => underscoreNext (ds ++ '-' :: p.1) p.2)
    else none) <|>
    (if c = '_' then some ds else none)

/-- Try `FEDERATION_PATTERN` at the start of `cs`, returning group 1 (the
first digit group is tried greedily: two digits, then one). -/
def fedAt (cs : List Char) : Option (List Char) :=
  (stripPrefixCI "denue_".data cs).bind fun rest =>
    ((takeDigits 2 rest).bind fun p => fedTail p.1 p.2) <|>
    ((takeDigits 1 rest).bind fun p => fedTail p.1 p.2)

/-- `re.search` with `FEDERATION_PATTERN`: leftmost matching position. -/
def fedSearch : List Char → Option (List Char)
  | [] => none
  | c :: cs => fedAt (c :: cs) <|> fedSearch cs

/-- First character is an ASCII letter. -/
def headIsAlpha : List Char → Bool
  | [] => false
  | c :: _ => c.isAlpha

/-- Character allowed in a URL scheme. -/
def isSchemeChar (c : Char) : Bool := c.isAlphanum || c == '+' || c == '-' || c == '.'

/-- Drop a leading `scheme:` when present. -/
def stripScheme (cs : List Char) : List Char :=
  let pre := cs.takeWhile fun c => c != ':'
  if decide (pre.length < cs.length) && headIsAlpha pre && pre.all isSchemeChar then
    cs.drop (pre.length + 1)
  else cs

/-- Drop a leading `//netloc` when present. -/
def stripNetloc : List Char → List Char
  | '/' :: '/' :: rest => rest.dropWhile fun c => c != '/'
  | cs => cs

/-- Modelled approximation of `urllib.parse.urlparse(url).path`: remove the
fragment and query, then the scheme and network-location prefixes when
present; what remains is the path.  (Exotic corner cases of the stdlib
parser are out of scope; the discovery code only feeds it portal URLs and
plain filenames.) -/
def pyUrlparsePath (url : String) : String :=
  String.mk (stripNetloc (stripScheme ((url.data.takeWhile fun c => c != '#').takeWhile
    fun c => c != '?')))

/-- Render a captured federation group: `zfill(2)` pads a lone digit with a
leading zero; longer groups are returned as matched. -/
def renderFed (g : List Char) : String :=
  if g.length == 1 then String.mk ('0' :: g) else String.mk g

/-- `_parse_federation(href, text)`: extract the federation code from the
href (then from its parsed path); otherwise fall back to the stripped link
text, or `"unknown"` when that is empty. -/
def parseFederation (href text : String) : String :=
  match fedSearch href.data with
  | some fed => renderFed fed
  | none =>
    match fedSearch (pyUrlparsePath href).data with
    | some fed => renderFed fed
    | none => if pyTrim text == "" then "unknown" else pyTrim text

/-- The string is exactly two decimal digits. -/
def isTwoDigitCode (s : String) : Bool :=
  match s.data with
  | [a, b] => a.isDigit && b.isDigit
  | _ => false

/-- The string is two two-digit runs joined by a hyphen (`"31-32"`). -/
def isTwoDigitRange (s : String) : Bool :=
  match s.data with
  | [a, b, '-', c, d] => a.isDigit && b.isDigit && c.isDigit && d.isDigit
  | _ => false

/-- A run of one or two decimal digits. -/
def isShortDigitRun (cs : List Char) : Bool :=
  !cs.isEmpty && cs.all Char.isDigit && decide (cs.length ≤ 2)

/-- The string is two one-or-two-digit runs joined by a hyphen (what the
federation pattern's group can actually capture, e.g. `"1-3"` or
`"31-32"`). -/
def isDigitRangeCode (s : String) : Bool :=
  let a := s.data.takeWhile Char.isDigit
  match s.data.drop a.length with
  | '-' :: rest => isShortDigitRun a && isShortDigitRun rest
  | _ => false

/-- Shape of a group captured by `FEDERATION_PATTERN`. -/
def FedShape (g : List Char) : Prop :=
  ((g.length = 1 ∨ g.length = 2) ∧ g.all Char.isDigit = true) ∨
  ∃ d1 d2, g = d1 ++ '-' :: d2 ∧
    (d1.length = 1 ∨ d1.length = 2) ∧ (d2.length = 1 ∨ d2.length = 2) ∧
    d1.all Char.isDigit = true ∧ d2.all Char.isDigit = true

lemma takeDigits_shape :
    ∀ (n : Nat) (cs : List Char) (p : List Char × List Char), takeDigits n cs = some p →
      p.1.length = n ∧ p.1.all Char.isDigit = true := by
  intro n
  induction n with
  | zero =>
    intro cs p h
    rw [takeDigits] at h
    injection h with h
    subst h
    exact ⟨rfl, rfl⟩
  | succ m ih =>
    intro cs p h
    cases cs with
    | nil => rw [takeDigits] at h; cases h
    | cons c cs' =>
      rw [takeDigits] at h
      by_cases hc : c.isDigit
      · rw [if_pos hc] at h
        cases hd : takeDigits m cs' with
        | none => rw [hd] at h; cases h
        | some q =>
          rw [hd] at h
          injection h with h
          obtain ⟨hl, ha⟩ := ih cs' q hd
          subst h
          exact ⟨by simp [hl], by simp [List.all_cons, hc, ha]⟩
      · rw [if_neg hc] at h; cases h

lemma orElse_eq_some {α : Type} {a b : Option α} {c : α}
    (h : (a <|> b) = some c) : a = some c ∨ (a = none ∧ b = some c) := by
  cases a with
  | none => right; exact ⟨rfl, by simpa using h⟩
  | some x => left; simpa using h

lemma digitsThenUnderscore_shape (n : Nat) (ds r2 g : List Char)
    (h : ((takeDigits n r2).bind fun p => underscoreNext (ds ++ '-' :: p.1) p.2) = some g) :
    ∃ d2, g = ds ++ '-' :: d2 ∧ d2.length = n ∧ d2.all Char.isDigit = true := by
  cases htd : takeDigits n r2 with
  | none => rw [htd] at h; cases h
  | some p =>
    rw [htd] at h
    simp only [Option.some_bind] at h
    rcases hp2 : p.2 with _ | ⟨u, us⟩ <;> rw [hp2] at h
    · rw [underscoreNext] at h; cases h
    · rw [underscoreNext] at h
      by_cases hu : u = '_'
      · rw [if_pos hu] at h
        injection h with h
        obtain ⟨hl, hd⟩ := takeDigits_shape n r2 p htd
        exact ⟨p.1, h.symm, hl, hd⟩
      · rw [if_neg hu] at h; cases h

lemma fedTail_shape (ds rest g : List Char) (hds : ds.length = 1 ∨ ds.length = 2)
    (hdig : ds.all Char.isDigit = true) (h : fedTail ds rest = some g) : FedShape g := by
  cases rest with
  | nil => rw [fedTail] at h; cases h
  | cons c r2 =>
    rw [fedTail] at h
    rcases orElse_eq_some h with h1 | ⟨_, h2⟩
    · by_cases hc : c = '-'
      · rw [if_pos hc] at h1
        rcases orElse_eq_some h1 with hA | ⟨_, hA⟩
        · obtain ⟨d2, hg, hl, hd⟩ := digitsThenUnderscore_shape 2 ds r2 g hA
          exact Or.inr ⟨ds, d2, hg, hds, Or.inr hl, hdig, hd⟩
        · obtain ⟨d2, hg, hl, hd⟩ := digitsThenUnderscore_shape 1 ds r2 g hA
          exact Or.inr ⟨ds, d2, hg, hds, Or.inl hl, hdig, hd⟩
      · rw [if_neg hc] at h1; cases h1
    · by_cases hc : c = '_'
      · rw [if_pos hc] at h2
        injection h2 with h2
        subst h2
        exact Or.inl ⟨hds, hdig⟩
      · rw [if_neg hc] at h2; cases h2

lemma fedAt_shape (cs g : List Char) (h : fedAt cs = some g) : FedShape g := by
  rw [fedAt] at h
  cases hs : stripPrefixCI "denue_".data cs with
  | none => rw [hs] at h; cases h
  | some rest =>
    rw [hs] at h
    simp only [Option.some_bind] at h
    rcases orElse_eq_some h with h1 | ⟨_, h1⟩
    · cases htd : takeDigits 2 rest with
      | none => rw [htd] at h1; cases h1
      | some p =>
        rw [htd] at h1
        simp only [Option.some_bind] at h1
        obtain ⟨hl, hd⟩ := takeDigits_shape 2 rest p htd
        exact fedTail_shape p.1 p.2 g (Or.inr hl) hd h1
    · cases htd : takeDigits 1 rest with
      | none => rw [htd] at h1; cases h1
      | some p =>
        rw [htd] at h1
        simp only [Option.some_bind] at h1
        obtain ⟨hl, hd⟩ := takeDigits_shape 1 rest p htd
        exact fedTail_shape p.1 p.2 g (Or.inl hl) hd h1

lemma fedSearch_shape :
    ∀ (cs g : List Char), fedSearch cs = some g → FedShape g := by
  intro cs
  induction cs with
  | nil => intro g h; cases h
  | cons c cs' ih =>
    intro g h
    rw [fedSearch] at h
    rcases orElse_eq_some h with h1 | ⟨_, h1⟩
    · exact fedAt_shape _ g h1
    · exact ih g h1

/-- A captured group, rendered by `_parse_federation` (leading zero added
to a lone digit), is a two-digit code or a short digit range. -/
lemma fedShape_rendered (g : List Char) (hg : FedShape g) :
    isTwoDigitCode (renderFed g) = true ∨ isDigitRangeCode (renderFed g) = true := by
  rcases hg with ⟨hl, hd⟩ | ⟨d1, d2, hgr, hl1, hl2, hd1, hd2⟩
  · left
    rcases hl with hl | hl
    · obtain ⟨a, ha⟩ := List.length_eq_one.mp hl
      subst ha
      have hda : a.isDigit = true := by simpa using hd
      rw [renderFed, if_pos (by simp)]
      simp [isTwoDigitCode, hda]
    · obtain ⟨a, b, hab⟩ := List.length_eq_two.mp hl
      subst hab
      have hda : a.isDigit = true ∧ b.isDigit = true := by simpa using hd
      rw [renderFed, if_neg (by simp)]
      simp [isTwoDigitCode, hda.1, hda.2]
  · right
    have hglen : g.length ≠ 1 := by
      subst hgr
      simp only [List.length_append, List.length_cons]
      omega
    rw [renderFed, if_neg (by simpa using hglen)]
    subst hgr
    rw [isDigitRangeCode]
    have htw : ∀ l : List Char, l.all Char.isDigit = true →
        (l ++ '-' :: d2).takeWhile Char.isDigit = l := by
      intro l hl
      induction l with
      | nil => simp [List.takeWhile]
      | cons x xs ihx =>
        simp only [List.all_cons, Bool.and_eq_true] at hl
        simp [List.takeWhile, hl.1, ihx hl.2]
    have hne1 : d1 ≠ [] := by
      intro hnil
      rw [hnil] at hl1
      simp at hl1
    have hne2 : d2 ≠ [] := by
      intro hnil
      rw [hnil] at hl2
      simp at hl2
    have hle1 : d1.length ≤ 2 := by rcases hl1 with h | h <;> omega
    have hle2 : d2.length ≤ 2 := by rcases hl2 with h | h <;> omega
    simp only [htw d1 hd1, List.drop_left]
    simp [isShortDigitRun, hne1, hne2, hd1, hd2, List.isEmpty_iff, hle1, hle2]

/-- A rendered group is never the empty string. -/
lemma renderFed_ne_empty (g : List Char) (hg : FedShape g) : renderFed g ≠ "" := by
  intro h
  rcases fedShape_rendered g hg with hc | hc <;> rw [h] at hc <;> cases hc

/-- C6 (amended): for every href and link text, `_parse_federation` returns
a non-empty string that is exactly two digits, or a hyphenated range whose
two parts are each one or two digits (a single-digit part such as in
`"1-3"` is possible and is not zero-padded), or the stripped link text when
non-empty, or `"unknown"`; the spec's three concrete examples hold. -/
theorem parse_federation_spec (href text : String) :
    (parseFederation href text ≠ "" ∧
      (isTwoDigitCode (parseFederation href text) = true ∨
       isDigitRangeCode (parseFederation href text) = true ∨
       (parseFederation href text = pyTrim text ∧ pyTrim text ≠ "") ∨
       parseFederation href text = "unknown")) ∧
    parseFederation "denue_09_2024_csv.zip" "CDMX" = "09" ∧
    parseFederation "denue_31-32_2023_csv.zip" "Yucatán" = "31-32" ∧
    parseFederation "other_file.zip" "Other" = "Other" := by
  refine ⟨?_, by decide, by decide, by decide⟩
  cases h1 : fedSearch href.data with
  | some g =>
    have hsh := fedSearch_shape href.data g h1
    simp only [parseFederation, h1]
    refine ⟨renderFed_ne_empty g hsh, ?_⟩
    rcases fedShape_rendered g hsh with hc | hc
    · exact Or.inl hc
    · exact Or.inr (Or.inl hc)
  | none =>
    cases h2 : fedSearch (pyUrlparsePath href).data with
    | some g =>
      have hsh := fedSearch_shape (pyUrlparsePath href).data g h2
      simp only [parseFederation, h1, h2]
      refine ⟨renderFed_ne_empty g hsh, ?_⟩
      rcases fedShape_rendered g hsh with hc | hc
      · exact Or.inl hc
      · exact Or.inr (Or.inl hc)
    | none =>
      simp only [parseFederation, h1, h2]
      by_cases ht : pyTrim text == ""
      · rw [if_pos ht]
        exact ⟨by decide, Or.inr (Or.inr (Or.inr rfl))⟩
      · rw [if_neg ht]
        exact ⟨by simpa using ht, Or.inr (Or.inr (Or.inl ⟨rfl, by simpa using ht⟩))⟩

/-- Witness for the C6 theorem at the spec's first concrete example. -/
theorem parse_federation_spec_witness :
    parseFederation "denue_09_2024_csv.zip" "CDMX" = "09" :=
  (parse_federation_spec "" "").2.1

/-- C6 counterexample: the capture group admits single-digit range halves,
so `_parse_federation("denue_1-3_x", "SomeText")` returns `"1-3"`, which is
neither exactly two digits, nor a two-digit hyphenated range, nor a
free-text fallback (it differs from the stripped link text and from
`"unknown"`). -/
theorem parse_federation_claim_false :
    parseFederation "denue_1-3_x" "SomeText" = "1-3" ∧
    isTwoDigitCode "1-3" = false ∧
    isTwoDigitRange "1-3" = false ∧
    "1-3" ≠ pyTrim "SomeText" ∧
    ("1-3" : String) ≠ "unknown" := by
  refine ⟨by decide, by decide, by decide, by decide, by decide⟩

/-! ## Link discovery — src/quacky_denue/discovery.py

`DENUE_CSV_ZIP_PATTERN` is
`/contenidos/masiva/denue/[0-9]{4}/denue_[0-9]{2}(?:-[0-9]{2})?_[0-9]{8}(?:_csv|_shp)\\.zip$`
with `re.IGNORECASE`, searched in `urlparse(url).path`; the tabular check
additionally requires the lowercased path to end in `_csv.zip`.  The
browser interaction is abstracted into the list of anchors scanned per
region view; everything from the anchor scan on is embedded from the
source. -/

/-- `denue_link` record — src/quacky_denue/models.py, `DownloadLink`. -/
structure DownloadLink : Type where
  href : String
  text : String
  federation : String
  deriving DecidableEq, Repr

/-- An anchor element as the collector sees it: its `href` attribute (when
present) and its inner text. -/
structure Anchor : Type where
  href : Option String
  text : String
  deriving DecidableEq, Repr

/-- Match the tail of `DENUE_CSV_ZIP_PATTERN` after the two-digit region
group: `_`, eight digits, `_csv`/`_shp`, `.zip`, end of string. -/
def denueZipEnd : List Char → Bool
  | [] => false
  | c :: r1 =>
    if c = '_' then
      match takeDigits 8 r1 with
      | none => false
      | some p =>
        (match stripPrefixCI "_csv.zip".data p.2 with
         | some [] => true
         | _ => false) ||
        (match stripPrefixCI "_shp.zip".data p.2 with
         | some [] => true
         | _ => false)
    else false

/-- Match `DENUE_CSV_ZIP_PATTERN` starting at this position and running to
the end of the string (the pattern is `$`-anchored). -/
def denueZipFrom (cs : List Char) : Bool :=
  match stripPrefixCI "/contenidos/masiva/denue/".data cs with
  | none => false
  | some r1 =>
    match takeDigits 4 r1 with
    | none => false
    | some p1 =>
      match stripPrefixCI "/denue_".data p1.2 with
      | none => false
      | some r2 =>
        match takeDigits 2 r2 with
        | none => false
        | some p2 =>
          match p2.2 with
          | [] => false
          | c :: r3 =>
            if c = '-' then
              match takeDigits 2 r3 with
              | some p3 => denueZipEnd p3.2
              | none => false
            else denueZipEnd p2.2

/-- `re.search` with `DENUE_CSV_ZIP_PATTERN`: try every start position. -/
def denueZipSearch : List Char → Bool
  | [] => false
  | c :: cs => denueZipFrom (c :: cs) || denueZipSearch cs

/-- `is_denue_csv_zip_url(url)`: the parsed path matches the strict DENUE
zip pattern and (excluding the shapefile variant the pattern also admits)
ends in `_csv.zip`. -/
def is_denue_csv_zip_url (url : String) : Bool :=
  denueZipSearch (pyUrlparsePath url).data &&
  "_csv.zip".data.isSuffixOf (pyLower (pyUrlparsePath url)).data

/-- `url` begins with a `scheme:` prefix. -/
def hasScheme (s : String) : Bool :=
  decide ((s.data.takeWhile fun c => c != ':').length < s.data.length) &&
  headIsAlpha (s.data.takeWhile fun c => c != ':') &&
  (s.data.takeWhile fun c => c != ':').all isSchemeChar

/-- Everything up to and including the last `/`. -/
def upToLastSlash (cs : List Char) : List Char :=
  ((cs.reverse.dropWhile fun c => c != '/')).reverse

/-- `scheme://netloc` prefix of a base URL. -/
def originOf (base : String) : List Char :=
  base.data.take (base.data.length - (stripNetloc (stripScheme base.data)).length)

/-- Modelled approximation of `urllib.parse.urljoin(base, href)` for the
cases the discovery flow exercises: an absolute `href` is returned as is; a
scheme-relative or root-relative `href` is resolved against the base's
scheme or origin; anything else is resolved against the base's directory. -/
def pyUrljoin (base href : String) : String :=
  if hasScheme href then href
  else if "//".data.isPrefixOf href.data then
    String.mk ((base.data.takeWhile fun c => c != ':') ++ ':' :: href.data)
  else if "/".data.isPrefixOf href.data then String.mk (originOf base ++ href.data)
  else String.mk (upToLastSlash base.data ++ href.data)

/-- Federation attached to a collected link: the parsed one, replaced by
the active region filter's state code when parsing fell back to
`"unknown"` and a non-empty state code is available. -/
def collectFed (absolute text : String) (state_code : Option String) : String :=
  if parseFederation absolute text = "unknown" then
    match state_code with
    | some sc => if sc = "" then parseFederation absolute text else sc
    | none => parseFederation absolute text
  else parseFederation absolute text

/-- `_collect_csv_links_for_current_view(page, config, state_code)`: scan
the anchors of the current view, skip those without an `href`, resolve each
`href` against the portal URL, and keep only those matching the strict
tabular URL shape. -/
def collectCsvLinks (cfgUrl : String) (anchors : List Anchor)
    (state_code : Option String) : List DownloadLink :=
  anchors.filterMap fun a =>
    match a.href with
    | none => none
    | some h =>
      if h = "" then none
      else if is_denue_csv_zip_url (pyUrljoin cfgUrl h) then
        some ⟨pyUrljoin cfgUrl h, pyTrim a.text,
          collectFed (pyUrljoin cfgUrl h) (pyTrim a.text) state_code⟩
      else none

/-- One step of the `{item.href: item for item in links}` dict
comprehension: a repeated href keeps its first position but takes the
last-seen value; a new href is appended. -/
def upsertByHref (acc : List DownloadLink) (l : DownloadLink) : List DownloadLink :=
  if acc.any fun x => x.href == l.href then
    acc.map fun x => if x.href == l.href then l else x
  else acc ++ [l]

/-- Deduplicate by absolute URL, preserving first-inserted order. -/
def dedupByHref (links : List DownloadLink) : List DownloadLink :=
  links.foldl upsertByHref []

/-- The discovery-relevant slice of `PipelineConfig`.  A `None` or empty
`federation_filter` is falsy in Python, so it is modelled as a plain list
with `[]` meaning "no filter". -/
structure DiscoveryConfig : Type where
  download_url : String
  federation_filter : List String
  max_files : Option Nat
  deriving Repr

/-- `discover_denue_links` after the browser loop: the concatenated
per-view collections, deduplicated and (when configured) filtered by
federation. -/
def discoverFiltered (cfg : DiscoveryConfig)
    (views : List (Option String × List Anchor)) : List DownloadLink :=
  if cfg.federation_filter ≠ [] then
    (dedupByHref (views.flatMap fun v => collectCsvLinks cfg.download_url v.2 v.1)).filter
      fun x => cfg.federation_filter.contains x.federation
  else dedupByHref (views.flatMap fun v => collectCsvLinks cfg.download_url v.2 v.1)

/-- `discover_denue_links(config)` with the browser session abstracted into
`views` (state code and anchor list per region iteration, or a single
`(none, anchors)` view when no region filters exist): dedup, filter, cap. -/
def discover_denue_links (cfg : DiscoveryConfig)
    (views : List (Option String × List Anchor)) : List DownloadLink :=
  match cfg.max_files with
  | some n => (discoverFiltered cfg views).take n
  | none => discoverFiltered cfg views

lemma mem_collectCsvLinks (cfgUrl : String) (anchors : List Anchor)
    (sc : Option String) (l : DownloadLink) (h : l ∈ collectCsvLinks cfgUrl anchors sc) :
    is_denue_csv_zip_url l.href = true := by
  rw [collectCsvLinks] at h
  obtain ⟨a, _, hfa⟩ := List.mem_filterMap.mp h
  cases ha : a.href with
  | none => rw [ha] at hfa; cases hfa
  | some s =>
    rw [ha] at hfa
    simp only at hfa
    by_cases hs : s = ""
    · rw [if_pos hs] at hfa; cases hfa
    · rw [if_neg hs] at hfa
      by_cases hd : is_denue_csv_zip_url (pyUrljoin cfgUrl s) = true
      · rw [if_pos hd] at hfa
        injection hfa with hfa
        rw [← hfa]
        exact hd
      · rw [if_neg hd] at hfa; cases hfa

lemma mem_upsertByHref (acc : List DownloadLink) (l x : DownloadLink)
    (h : x ∈ upsertByHref acc l) : x ∈ acc ∨ x = l := by
  rw [upsertByHref] at h
  split at h
  · obtain ⟨y, hy, hyx⟩ := List.mem_map.mp h
    by_cases hb : y.href == l.href
    · rw [if_pos hb] at hyx; right; exact hyx.symm
    · rw [if_neg hb] at hyx; left; exact hyx ▸ hy
  · rcases List.mem_append.mp h with h1 | h1
    · left; exact h1
    · right; simpa using h1

lemma mem_dedup_foldl :
    ∀ (links acc : List DownloadLink) (x : DownloadLink),
      x ∈ links.foldl upsertByHref acc → x ∈ acc ∨ x ∈ links := by
  intro links
  induction links with
  | nil => intro acc x h; left; simpa using h
  | cons l ls ih =>
    intro acc x h
    rw [List.foldl_cons] at h
    rcases ih (upsertByHref acc l) x h with h1 | h1
    · rcases mem_upsertByHref acc l x h1 with h2 | h2
      · left; exact h2
      · right; rw [h2]; exact List.mem_cons_self l ls
    · right; exact List.mem_cons_of_mem l h1

lemma upsertByHref_hrefs_nodup (acc : List DownloadLink) (l : DownloadLink)
    (h : (acc.map DownloadLink.href).Nodup) :
    ((upsertByHref acc l).map DownloadLink.href).Nodup := by
  rw [upsertByHref]
  split
  · have heq : (acc.map fun x => if x.href == l.href then l else x).map DownloadLink.href =
        acc.map DownloadLink.href := by
      rw [List.map_map]
      refine List.map_congr_left fun x _ => ?_
      by_cases hb : x.href == l.href
      · have hx : x.href = l.href := by simpa using hb
        simp [Function.comp, hb, hx]
      · simp [Function.comp, hb]
    rw [heq]
    exact h
  · rename_i hany
    rw [List.map_append]
    rw [List.nodup_append]
    refine ⟨h, by simp, ?_⟩
    intro s hs
    simp only [List.map_cons, List.map_nil, List.mem_singleton]
    intro hsl
    obtain ⟨x, hx, hxs⟩ := List.mem_map.mp hs
    apply hany
    rw [List.any_eq_true]
    exact ⟨x, hx, by rw [hxs, hsl]; simp⟩

lemma dedup_foldl_hrefs_nodup :
    ∀ (links acc : List DownloadLink), (acc.map DownloadLink.href).Nodup →
      ((links.foldl upsertByHref acc).map DownloadLink.href).Nodup := by
  intro links
  induction links with
  | nil => intro acc h; simpa using h
  | cons l ls ih =>
    intro acc h
    rw [List.foldl_cons]
    exact ih (upsertByHref acc l) (upsertByHref_hrefs_nodup acc l h)

lemma mem_discoverFiltered (cfg : DiscoveryConfig)
    (views : List (Option String × List Anchor)) (l : DownloadLink)
    (h : l ∈ discoverFiltered cfg views) : is_denue_csv_zip_url l.href = true := by
  rw [discoverFiltered] at h
  have hbase : ∀ x : DownloadLink,
      x ∈ dedupByHref (views.flatMap fun v => collectCsvLinks cfg.download_url v.2 v.1) →
      is_denue_csv_zip_url x.href = true := by
    intro x hx
    rcases mem_dedup_foldl _ [] x hx with h1 | h1
    · cases h1
    · obtain ⟨v, _, hv⟩ := List.mem_flatMap.mp h1
      exact mem_collectCsvLinks cfg.download_url v.2 v.1 x hv
  split at h
  · exact hbase l (List.mem_of_mem_filter h)
  · exact hbase l h

lemma discoverFiltered_hrefs_nodup (cfg : DiscoveryConfig)
    (views : List (Option String × List Anchor)) :
    ((discoverFiltered cfg views).map DownloadLink.href).Nodup := by
  have hbase := dedup_foldl_hrefs_nodup
    (views.flatMap fun v => collectCsvLinks cfg.download_url v.2 v.1) [] (by simp)
  rw [discoverFiltered]
  split
  · exact hbase.sublist (List.Sublist.map DownloadLink.href (List.filter_sublist _))
  · exact hbase

/-- C7: every link returned by discovery has an href matching the strict
tabular URL pattern (checked concretely on a real DENUE URL and its
shapefile variant in the final conjunct); hrefs are pairwise distinct; when
a region allow-list is configured every surviving link's federation is in
it; and when a maximum-count cap is configured the result is the first `n`
links of the filtered stage, in order. -/
theorem discover_denue_links_spec (cfg : DiscoveryConfig)
    (views : List (Option String × List Anchor)) :
    (∀ l ∈ discover_denue_links cfg views, is_denue_csv_zip_url l.href = true) ∧
    ((discover_denue_links cfg views).map DownloadLink.href).Nodup ∧
    (cfg.federation_filter ≠ [] →
      ∀ l ∈ discover_denue_links cfg views, l.federation ∈ cfg.federation_filter) ∧
    (∀ n, cfg.max_files = some n →
      discover_denue_links cfg views = (discoverFiltered cfg views).take n) ∧
    (is_denue_csv_zip_url
      "https://www.inegi.org.mx/contenidos/masiva/denue/2024/denue_09_25022024_csv.zip"
        = true ∧
     is_denue_csv_zip_url
      "https://www.inegi.org.mx/contenidos/masiva/denue/2024/denue_09_25022024_shp.zip"
        = false) := by
  have hsub : ∀ l ∈ discover_denue_links cfg views, l ∈ discoverFiltered cfg views := by
    intro l hl
    rw [discover_denue_links] at hl
    cases hm : cfg.max_files with
    | none => rw [hm] at hl; exact hl
    | some n =>
      rw [hm] at hl
      exact (List.take_sublist n _).mem hl
  refine ⟨?_, ?_, ?_, ?_, by decide, by decide⟩
  · intro l hl
    exact mem_discoverFiltered cfg views l (hsub l hl)
  · have hnd := discoverFiltered_hrefs_nodup cfg views
    rw [discover_denue_links]
    cases cfg.max_files with
    | none => exact hnd
    | some n => exact hnd.sublist (List.Sublist.map DownloadLink.href (List.take_sublist n _))
  · intro hne l hl
    have hl2 := hsub l hl
    rw [discoverFiltered, if_pos hne] at hl2
    have := (List.mem_filter.mp hl2).2
    simpa [List.contains] using this
  · intro n hn
    rw [discover_denue_links, hn]

/-- Witness for the C7 theorem: with a configured cap of 1 the result is
the first link of the filtered stage. -/
theorem discover_denue_links_spec_witness :
    discover_denue_links ⟨"https://example.org", [], some 1⟩ [] =
      (discoverFiltered ⟨"https://example.org", [], some 1⟩ []).take 1 :=
  (discover_denue_links_spec ⟨"https://example.org", [], some 1⟩ []).2.2.2.1 1 rfl

/-! ## Schema normalization — src/quacky_denue/schema.py

A pandas `DataFrame` is embedded as an ordered column-name list plus
positional rows of cells.  A cell is `null` (None/NaN), a string, an
integer, or — for the `raw_extra_json` column only — the serialized JSON
object produced by `to_dict(orient="records")` + `json.dumps`, represented
by its parsed key-value content (`json.dumps` is injective on these
payloads and `json.loads` is its inverse, so the serialized string is
modelled by the structured value it encodes). -/

/-- One DataFrame cell. -/
inductive Cell : Type
  | null
  | str (s : String)
  | num (n : Int)
  | obj (kvs : List (String × Cell))

/-- A DataFrame: column names plus positional rows. -/
structure DF : Type where
  cols : List String
  rows : List (List Cell)

/-- Cell of a row at a positional index (missing positions read as null —
they never arise on well-formed frames). -/
def cellAt : List Cell → Nat → Cell
  | [], _ => Cell.null
  | c :: _, 0 => c
  | _ :: r, n + 1 => cellAt r n

/-- Index of the first occurrence of a column name. -/
def colIdx (c : String) : List String → Option Nat
  | [] => none
  | x :: xs => if x = c then some 0 else (colIdx c xs).map (· + 1)

/-- Value of a row at a named column. -/
def getAt (cols : List String) (r : List Cell) (c : String) : Cell :=
  match colIdx c cols with
  | some i => cellAt r i
  | none => Cell.null

/-- `df[col] = ...` for a per-row value: overwrite in place when the column
exists, else append it on the right. -/
def setCol (df : DF) (c : String) (f : List Cell → Cell) : DF :=
  match colIdx c df.cols with
  | some i => ⟨df.cols, df.rows.map fun r => r.set i (f r)⟩
  | none => ⟨df.cols ++ [c], df.rows.map fun r => r ++ [f r]⟩

/-- Modelled from the spec: `src/quacky_denue/constants.py` is not present
in the source tree.  `CANONICAL_COLUMNS` follows the spec's data model —
business/address/geography/contact fields (the names evidenced by the
repository's tests), then the catch-all field and the five provenance
fields, all of which `normalize_chunk` requires to be canonical. -/
def CANONICAL_COLUMNS : List String :=
  ["id", "nom_estab", "raz_social", "codigo_act", "nombre_act",
   "cve_ent", "entidad", "cve_mun", "municipio", "cod_postal",
   "latitud", "longitud", "telefono", "correoelec", "www",
   "raw_extra_json",
   "snapshot_period", "source_file", "federation", "schema_version", "extraction_ts"]

/-- Modelled from the spec: the alias table of the missing `constants.py`
(known variant header spellings, post-normalization, mapped to canonical
names); the entry below is pinned by the repository's tests. -/
def COLUMN_ALIASES : List (String × String) :=
  [("nombre_de_la_actividad", "nombre_act")]

/-- Modelled from the spec: the required-minimum field set of the missing
`constants.py`, as exercised by the repository's tests. -/
def REQUIRED_MINIMUM_COLUMNS : List String :=
  ["id", "nom_estab", "codigo_act", "cve_ent", "entidad"]

/-- `NON_ALNUM = [^a-zA-Z0-9]+` membership (ASCII classes). -/
def isAsciiAlnum (c : Char) : Bool :=
  decide (97 ≤ c.toNat ∧ c.toNat ≤ 122) || decide (65 ≤ c.toNat ∧ c.toNat ≤ 90) ||
  decide (48 ≤ c.toNat ∧ c.toNat ≤ 57)

/-- `NON_ALNUM.sub("_", ·)`: replace each maximal non-alphanumeric run by a
single underscore (the flag records whether the previous character was
inside such a run). -/
def collapseNonAlnum : Bool → List Char → List Char
  | _, [] => []
  | prevSep, c :: rest =>
    if isAsciiAlnum c then c :: collapseNonAlnum false rest
    else if prevSep then collapseNonAlnum true rest
    else '_' :: collapseNonAlnum true rest

/-- `.strip("_")`. -/
def stripUnderscores (cs : List Char) : List Char :=
  ((cs.dropWhile fun c => c = '_').reverse.dropWhile fun c => c = '_').reverse

/-- `to_snake_case(text)`: strip, collapse non-alphanumeric runs to single
underscores, strip edge underscores, lowercase. -/
def to_snake_case (text : String) : String :=
  String.mk ((stripUnderscores (collapseNonAlnum false (trimWs text.data))).map Char.toLower)

/-- `resolve_columns(columns)`: resolve each header via the alias table
(falling back to its snake-cased form) and collect the resolved names
outside the canonical set, deduplicated and sorted. -/
def resolve_columns (columns : List String) : List String × List String :=
  let resolved := columns.map fun col =>
    match COLUMN_ALIASES.lookup (to_snake_case col) with
    | some canonical => canonical
    | none => to_snake_case col
  (resolved, pySort ((resolved.filter fun c => !(CANONICAL_COLUMNS.contains c)).dedup))

/-- The canonical-fill loop: `for col in CANONICAL_COLUMNS: if col not in
df.columns: df[col] = None`. -/
def addMissingCanonical (df : DF) : DF :=
  CANONICAL_COLUMNS.foldl
    (fun d col => if d.cols.contains col then d else setCol d col fun _ => Cell.null) df

/-- Columns outside the canonical set. -/
def extrasOf (cols : List String) : List String :=
  cols.filter fun c => !(CANONICAL_COLUMNS.contains c)

/-- `fillna("")` on one cell. -/
def fillnaCell : Cell → Cell
  | Cell.null => Cell.str ""
  | c => c

/-- The catch-all pack step: when extras exist, store per row the
serialized record of the extras columns (nulls first replaced by `""`). -/
def packExtras (df : DF) : DF :=
  if (extrasOf df.cols).isEmpty then df
  else
    setCol df "raw_extra_json" fun r =>
      Cell.obj ((extrasOf df.cols).map fun c => (c, fillnaCell (getAt df.cols r c)))

/-- `astype("string")` on one cell: nulls stay null (pandas `NA`), numbers
become their decimal text, strings (including the serialized JSON payload)
stay as they are. -/
def astypeStringCell : Cell → Cell
  | Cell.null => Cell.null
  | Cell.str s => Cell.str s
  | Cell.num n => Cell.str (toString n)
  | Cell.obj kvs => Cell.obj kvs

/-- Result of `normalize_chunk`: the Python function mutates its argument
in place and returns `(standardized, missing_required, unknown_cols)`; the
embedding passes state explicitly, so `mutated` is the caller's DataFrame
as it is left after the call. -/
structure NormalizeResult : Type where
  mutated : DF
  standardized : DF
  missing_required : List String
  unknown_columns : List String

/-- `normalize_chunk(df, snapshot_period=, source_file=, federation=)`.
The extraction timestamp `pd.Timestamp.now("UTC").isoformat()` is the one
impure input and is passed in as `now`. -/
def normalize_chunk (df : DF) (snapshot_period source_file federation now : String) :
    NormalizeResult :=
  let resolved := (resolve_columns df.cols).1
  let df1 : DF := ⟨resolved, df.rows⟩
  let missing_required := REQUIRED_MINIMUM_COLUMNS.filter fun col => !(df1.cols.contains col)
  let df2 := addMissingCanonical df1
  let df3 := packExtras df2
  let df4 := setCol df3 "snapshot_period" fun _ => Cell.str snapshot_period
  let df5 := setCol df4 "source_file" fun _ => Cell.str source_file
  let df6 := setCol df5 "federation" fun _ => Cell.str federation
  let df7 := setCol df6 "schema_version" fun _ => Cell.str "v1"
  let df8 := setCol df7 "extraction_ts" fun _ => Cell.str now
  { mutated := df8
    standardized := ⟨CANONICAL_COLUMNS,
      df8.rows.map fun r => CANONICAL_COLUMNS.map fun c => astypeStringCell (getAt df8.cols r c)⟩
    missing_required := missing_required
    unknown_columns := (resolve_columns df.cols).2 }

/-! ### Positional-access lemmas -/

lemma cellAt_set_self : ∀ (r : List Cell) (i : Nat) (v : Cell), i < r.length →
    cellAt (r.set i v) i = v := by
  intro r
  induction r with
  | nil => intro i v h; simp at h
  | cons c cs ih =>
    intro i v h
    cases i with
    | zero => rfl
    | succ n =>
      rw [List.set_cons_succ, cellAt]
      exact ih n v (by simpa using h)

lemma cellAt_set_ne : ∀ (r : List Cell) (i j : Nat) (v : Cell), i ≠ j →
    cellAt (r.set i v) j = cellAt r j := by
  intro r
  induction r with
  | nil => intro i j v _; simp
  | cons c cs ih =>
    intro i j v hij
    cases i with
    | zero =>
      cases j with
      | zero => exact absurd rfl hij
      | succ m => rfl
    | succ n =>
      cases j with
      | zero => rfl
      | succ m =>
        rw [List.set_cons_succ, cellAt, cellAt]
        exact ih n m v (by omega)

lemma cellAt_append_left : ∀ (r t : List Cell) (i : Nat), i < r.length →
    cellAt (r ++ t) i = cellAt r i := by
  intro r
  induction r with
  | nil => intro t i h; simp at h
  | cons c cs ih =>
    intro t i h
    cases i with
    | zero => rfl
    | succ n => exact ih t n (by simpa using h)

lemma cellAt_append_right : ∀ (r t : List Cell) (k : Nat),
    cellAt (r ++ t) (r.length + k) = cellAt t k := by
  intro r
  induction r with
  | nil => intro t k; simp [cellAt]
  | cons c cs ih =>
    intro t k
    rw [List.cons_append, List.length_cons]
    rw [show cs.length + 1 + k = (cs.length + k) + 1 from by omega]
    rw [cellAt]
    exact ih t k

lemma cellAt_replicate_null : ∀ (n k : Nat), cellAt (List.replicate n Cell.null) k = Cell.null := by
  intro n
  induction n with
  | zero => intro k; cases k <;> rfl
  | succ m ih =>
    intro k
    cases k with
    | zero => rfl
    | succ j => rw [List.replicate_succ, cellAt]; exact ih j

lemma cellAt_out_of_range : ∀ (r : List Cell) (i : Nat), r.length ≤ i →
    cellAt r i = Cell.null := by
  intro r
  induction r with
  | nil => intro i _; cases i <;> rfl
  | cons c cs ih =>
    intro i h
    cases i with
    | zero => simp at h
    | succ n => rw [cellAt]; exact ih n (by simpa using h)

/-! ### Column-index lemmas -/

lemma colIdx_eq_none_iff (c : String) : ∀ l : List String, colIdx c l = none ↔ c ∉ l := by
  intro l
  induction l with
  | nil => simp [colIdx]
  | cons x xs ih =>
    rw [colIdx]
    by_cases hx : x = c
    · simp [hx]
    · rw [if_neg hx]
      constructor
      · intro h hmem
        rcases List.mem_cons.mp hmem with hm | hm
        · exact hx hm.symm
        · cases hrec : colIdx c xs with
          | none => exact (ih.mp hrec) hm
          | some j => rw [hrec] at h; cases h
      · intro h
        have hxs : c ∉ xs := fun hm => h (List.mem_cons_of_mem x hm)
        rw [ih.mpr hxs]
        rfl

lemma colIdx_lt_length (c : String) : ∀ (l : List String) (i : Nat),
    colIdx c l = some i → i < l.length := by
  intro l
  induction l with
  | nil => intro i h; cases h
  | cons x xs ih =>
    intro i h
    rw [colIdx] at h
    by_cases hx : x = c
    · rw [if_pos hx] at h
      injection h with h
      subst h
      simp
    · rw [if_neg hx] at h
      cases hrec : colIdx c xs with
      | none => rw [hrec] at h; cases h
      | some j =>
        rw [hrec] at h
        injection h with h
        subst h
        have := ih j hrec
        simp
        omega

lemma colIdx_get (c : String) : ∀ (l : List String) (i : Nat),
    colIdx c l = some i → l.get? i = some c := by
  intro l
  induction l with
  | nil => intro i h; cases h
  | cons x xs ih =>
    intro i h
    rw [colIdx] at h
    by_cases hx : x = c
    · rw [if_pos hx] at h
      injection h with h
      subst h
      simp [hx]
    · rw [if_neg hx] at h
      cases hrec : colIdx c xs with
      | none => rw [hrec] at h; cases h
      | some j =>
        rw [hrec] at h
        injection h with h
        subst h
        simpa using ih j hrec

lemma colIdx_ne (c c' : String) (l : List String) (i j : Nat) (hne : c ≠ c')
    (hi : colIdx c l = some i) (hj : colIdx c' l = some j) : i ≠ j := by
  intro hij
  subst hij
  have h1 := colIdx_get c l i hi
  have h2 := colIdx_get c' l i hj
  rw [h1] at h2
  injection h2 with h2
  exact hne h2

lemma colIdx_append_left (c : String) : ∀ (l l2 : List String) (i : Nat),
    colIdx c l = some i → colIdx c (l ++ l2) = some i := by
  intro l
  induction l with
  | nil => intro l2 i h; cases h
  | cons x xs ih =>
    intro l2 i h
    rw [colIdx] at h
    rw [List.cons_append, colIdx]
    by_cases hx : x = c
    · rw [if_pos hx] at h ⊢; exact h
    · rw [if_neg hx] at h ⊢
      cases hrec : colIdx c xs with
      | none => rw [hrec] at h; cases h
      | some j =>
        rw [hrec] at h
        rw [ih l2 j hrec]
        exact h

lemma colIdx_append_right (c : String) : ∀ (l l2 : List String), c ∉ l →
    colIdx c (l ++ l2) = (colIdx c l2).map (· + l.length) := by
  intro l
  induction l with
  | nil => intro l2 _; simp
  | cons x xs ih =>
    intro l2 hmem
    rw [List.cons_append, colIdx]
    have hx : x ≠ c := fun h => hmem (by rw [h]; exact List.mem_cons_self c xs)
    rw [if_neg hx, ih l2 (fun h => hmem (List.mem_cons_of_mem x h))]
    cases colIdx c l2 with
    | none => rfl
    | some j =>
      show some (j + xs.length + 1) = some (j + (x :: xs).length)
      rw [List.length_cons, Nat.add_assoc]

/-! ### Named-access lemmas -/

lemma getAt_append_keep (cols l2 : List String) (r t : List Cell) (c : String)
    (hc : c ∈ cols) (hlen : r.length = cols.length) :
    getAt (cols ++ l2) (r ++ t) c = getAt cols r c := by
  rw [getAt, getAt]
  cases hi : colIdx c cols with
  | none => exact absurd ((colIdx_eq_none_iff c cols).mp hi) (fun hn => hn hc)
  | some i =>
    rw [colIdx_append_left c cols l2 i hi]
    exact cellAt_append_left r t i (by rw [hlen]; exact colIdx_lt_length c cols i hi)

lemma getAt_append_nulls (cols l2 : List String) (r : List Cell) (c : String)
    (hc : c ∉ cols) (hlen : r.length = cols.length) :
    getAt (cols ++ l2) (r ++ List.replicate l2.length Cell.null) c = Cell.null := by
  rw [getAt]
  rw [colIdx_append_right c cols l2 hc]
  cases hi : colIdx c l2 with
  | none => rfl
  | some j =>
    show cellAt (r ++ List.replicate l2.length Cell.null) (j + cols.length) = Cell.null
    rw [show j + cols.length = r.length + j from by omega, cellAt_append_right]
    exact cellAt_replicate_null l2.length j

lemma getAt_set_self (cols : List String) (r : List Cell) (c : String) (i : Nat) (v : Cell)
    (hi : colIdx c cols = some i) (hlen : r.length = cols.length) :
    getAt cols (r.set i v) c = v := by
  rw [getAt, hi]
  exact cellAt_set_self r i v (by rw [hlen]; exact colIdx_lt_length c cols i hi)

lemma getAt_set_other (cols : List String) (r : List Cell) (c c' : String) (i : Nat) (v : Cell)
    (hi : colIdx c cols = some i) (hne : c' ≠ c) :
    getAt cols (r.set i v) c' = getAt cols r c' := by
  rw [getAt, getAt]
  cases hj : colIdx c' cols with
  | none => rfl
  | some j => exact cellAt_set_ne r i j v (colIdx_ne c c' cols i j (fun h => hne h.symm) hi hj)

lemma setCol_of_mem (df : DF) (c : String) (f : List Cell → Cell) (hc : c ∈ df.cols) :
    ∃ i, colIdx c df.cols = some i ∧
      setCol df c f = ⟨df.cols, df.rows.map fun r => r.set i (f r)⟩ := by
  cases hi : colIdx c df.cols with
  | none => exact absurd ((colIdx_eq_none_iff c df.cols).mp hi) (fun hn => hn hc)
  | some i => exact ⟨i, rfl, by rw [setCol, hi]⟩

lemma setCol_of_not_mem (df : DF) (c : String) (f : List Cell → Cell) (hc : c ∉ df.cols) :
    setCol df c f = ⟨df.cols ++ [c], df.rows.map fun r => r ++ [f r]⟩ := by
  rw [setCol, (colIdx_eq_none_iff c df.cols).mpr hc]

lemma string_contains_iff (l : List String) (c : String) : l.contains c = true ↔ c ∈ l := by
  induction l with
  | nil => simp [List.contains]
  | cons x xs ih =>
    rw [List.contains_cons, Bool.or_eq_true]
    constructor
    · intro h
      rcases h with h | h
      · have hcx : c = x := by simpa using h
        rw [hcx]
        exact List.mem_cons_self x xs
      · exact List.mem_cons_of_mem x (ih.mp h)
    · intro h
      rcases List.mem_cons.mp h with h | h
      · left
        simpa using h
      · right
        exact ih.mpr h

/-- The value of the canonical-fill fold: every canonical column missing
from the frame is appended (in canonical order), and each row gains a null
cell per appended column. -/
lemma addMissing_foldl :
    ∀ (l : List String), l.Nodup → ∀ df : DF,
      l.foldl (fun d col => if d.cols.contains col then d else setCol d col fun _ => Cell.null)
          df =
        ⟨df.cols ++ l.filter fun c => !(df.cols.contains c),
         df.rows.map fun r =>
           r ++ List.replicate (l.filter fun c => !(df.cols.contains c)).length Cell.null⟩ := by
  intro l
  induction l with
  | nil =>
    intro _ df
    cases df with
    | mk cols rows =>
      rw [List.foldl_nil]
      refine congrArg₂ DF.mk ?_ ?_
      · rw [List.filter_nil, List.append_nil]
      · rw [List.filter_nil]
        show rows = rows.map fun r => r ++ List.replicate ([] : List String).length Cell.null
        rw [show List.replicate ([] : List String).length Cell.null = [] from rfl]
        rw [show (fun r : List Cell => r ++ ([] : List Cell)) = id from
          funext fun r => List.append_nil r, List.map_id]
  | cons a l' ih =>
    intro hnd df
    have hnd' : l'.Nodup := hnd.of_cons
    have hal' : a ∉ l' := by
      intro hmem
      exact (List.nodup_cons.mp hnd).1 hmem
    rw [List.foldl_cons]
    by_cases ha : df.cols.contains a = true
    · rw [if_pos ha, ih hnd' df]
      have hba : (!(df.cols.contains a)) = false := by rw [ha]; rfl
      have hfa : (List.filter (fun c => !(df.cols.contains c)) (a :: l')) =
          List.filter (fun c => !(df.cols.contains c)) l' := by
        simp only [List.filter_cons, hba]
        rfl
      rw [hfa]
    · rw [if_neg ha]
      have hmem : a ∉ df.cols := fun hm => ha ((string_contains_iff df.cols a).mpr hm)
      rw [setCol_of_not_mem df a _ hmem]
      rw [ih hnd' ⟨df.cols ++ [a], df.rows.map fun r => r ++ [Cell.null]⟩]
      have hfeq : List.filter (fun c => !((df.cols ++ [a]).contains c)) l' =
          List.filter (fun c => !(df.cols.contains c)) l' := by
        refine List.filter_congr fun c hc => ?_
        have hca : c ≠ a := fun h => hal' (h ▸ hc)
        by_cases hcc : df.cols.contains c = true
        · have : (df.cols ++ [a]).contains c = true := by
            rw [string_contains_iff] at hcc ⊢
            exact List.mem_append_left [a] hcc
          rw [hcc, this]
        · have : ¬(df.cols ++ [a]).contains c = true := by
            rw [string_contains_iff]
            intro hm
            rcases List.mem_append.mp hm with hm | hm
            · exact hcc ((string_contains_iff df.cols c).mpr hm)
            · exact hca (by simpa using hm)
          simp only [Bool.not_eq_true] at hcc this
          rw [hcc, this]
      have hfalse : df.cols.contains a = false := by
        cases hb : df.cols.contains a
        · rfl
        · exact absurd hb ha
      have hba : (!(df.cols.contains a)) = true := by rw [hfalse]; rfl
      have hfa : List.filter (fun c => !(df.cols.contains c)) (a :: l') =
          a :: List.filter (fun c => !(df.cols.contains c)) l' := by
        simp only [List.filter_cons, hba]
        rfl
      rw [hfeq, hfa]
      refine congrArg₂ DF.mk ?_ ?_
      · rw [List.append_assoc]
        rfl
      · rw [List.map_map]
        refine List.map_congr_left fun r _ => ?_
        simp only [Function.comp, List.length_cons, List.append_assoc]
        rw [List.replicate_succ]
        rfl

/-- Reading a projected row (`cols.map g`) at a column of `cols` evaluates
the projection there. -/
lemma cellAt_map_get : ∀ (l : List String) (g : String → Cell) (i : Nat) (c : String),
    l.get? i = some c → cellAt (l.map g) i = g c := by
  intro l
  induction l with
  | nil => intro g i c h; cases h
  | cons x xs ih =>
    intro g i c h
    cases i with
    | zero =>
      injection h with h
      subst h
      rfl
    | succ n =>
      rw [List.map_cons, cellAt]
      exact ih g n c (by simpa using h)

lemma getAt_map (cols : List String) (g : String → Cell) (c : String) (hc : c ∈ cols) :
    getAt cols (cols.map g) c = g c := by
  rw [getAt]
  cases hi : colIdx c cols with
  | none => exact absurd ((colIdx_eq_none_iff c cols).mp hi) (fun hn => hn hc)
  | some i => exact cellAt_map_get cols g i c (colIdx_get c cols i hi)

/-- Looking up a key in a record built over distinct keys by mapping. -/
lemma lookup_map_self : ∀ (l : List String) (v : String → Cell) (c : String), c ∈ l →
    (l.map fun x => (x, v x)).lookup c = some (v c) := by
  intro l
  induction l with
  | nil => intro v c h; cases h
  | cons x xs ih =>
    intro v c hc
    rw [List.map_cons]
    by_cases hx : x = c
    · subst hx
      simp [List.lookup]
    · have hbeq : (c == x) = false := by
        rw [beq_eq_false_iff_ne]
        exact fun h => hx h.symm
      simp only [List.lookup, hbeq]
      rcases List.mem_cons.mp hc with h | h
      · exact absurd h.symm hx
      · exact ih v c h

/-! ### Derived column sets of one `normalize_chunk` call -/

/-- Resolved header list of the input frame. -/
def resolvedOf (cols : List String) : List String := (resolve_columns cols).1

/-- Columns of the frame after the canonical-fill loop: the resolved
headers followed by the canonical columns they do not cover. -/
def mutColsOf (cols : List String) : List String :=
  resolvedOf cols ++ (CANONICAL_COLUMNS.filter fun c => !((resolvedOf cols).contains c))

/-- The non-canonical resolved headers (the extras that get packed). -/
def extrasOfR (cols : List String) : List String :=
  (resolvedOf cols).filter fun c => !(CANONICAL_COLUMNS.contains c)

/-- The five provenance columns stamped by `normalize_chunk`. -/
def PROVENANCE_COLUMNS : List String :=
  ["snapshot_period", "source_file", "federation", "schema_version", "extraction_ts"]

/-- A cell is a text representation (or null): everything except a raw
number.  The `obj` payload stands for the already-serialized JSON string. -/
def isTextualCell : Cell → Bool
  | Cell.num _ => false
  | _ => true

lemma astypeStringCell_textual (c : Cell) : isTextualCell (astypeStringCell c) = true := by
  cases c <;> rfl

lemma filter_eq_nil_of {α : Type} (l : List α) (q : α → Bool) (h : ∀ c ∈ l, q c = false) :
    l.filter q = [] := by
  induction l with
  | nil => rfl
  | cons x xs ih =>
    have hx := h x (List.mem_cons_self x xs)
    simp only [List.filter_cons, hx]
    simpa using ih fun c hc => h c (List.mem_cons_of_mem x hc)

lemma mem_mutCols (cols : List String) (c : String) (hc : c ∈ CANONICAL_COLUMNS) :
    c ∈ mutColsOf cols := by
  by_cases hr : c ∈ resolvedOf cols
  · exact List.mem_append_left _ hr
  · refine List.mem_append_right _ ?_
    rw [List.mem_filter]
    refine ⟨hc, ?_⟩
    have hfalse : (resolvedOf cols).contains c = false := by
      cases hb : (resolvedOf cols).contains c
      · rfl
      · exact absurd ((string_contains_iff _ c).mp hb) hr
    rw [hfalse]
    rfl

lemma extrasOf_mutCols (cols : List String) :
    extrasOf (mutColsOf cols) = extrasOfR cols := by
  rw [extrasOf, mutColsOf, List.filter_append]
  have h2 : (CANONICAL_COLUMNS.filter fun c => !((resolvedOf cols).contains c)).filter
      (fun c => !(CANONICAL_COLUMNS.contains c)) = [] := by
    refine filter_eq_nil_of _ _ fun c hc => ?_
    have hcC : c ∈ CANONICAL_COLUMNS := (List.mem_filter.mp hc).1
    have hcont : CANONICAL_COLUMNS.contains c = true := (string_contains_iff _ c).mpr hcC
    rw [hcont]
    rfl
  rw [h2, List.append_nil]
  rfl

lemma colIdx_isSome_of_mem (cols : List String) (c : String) (hc : c ∈ cols) :
    ∃ i, colIdx c cols = some i := by
  cases hi : colIdx c cols with
  | none => exact absurd ((colIdx_eq_none_iff c cols).mp hi) (fun hn => hn hc)
  | some i => exact ⟨i, rfl⟩

/-- Effect of the five provenance `df[col] = value` assignments on named
reads: the five provenance columns read back their stamped values, and any
other column reads as before. -/
lemma provenance_sets_getAt (cols : List String) (base : List Cell)
    (i1 i2 i3 i4 i5 : Nat) (p src fed now : String)
    (h1 : colIdx "snapshot_period" cols = some i1)
    (h2 : colIdx "source_file" cols = some i2)
    (h3 : colIdx "federation" cols = some i3)
    (h4 : colIdx "schema_version" cols = some i4)
    (h5 : colIdx "extraction_ts" cols = some i5)
    (hlen : base.length = cols.length) :
    (getAt cols (((((base.set i1 (Cell.str p)).set i2 (Cell.str src)).set i3
          (Cell.str fed)).set i4 (Cell.str "v1")).set i5 (Cell.str now)) "snapshot_period" =
        Cell.str p ∧
     getAt cols (((((base.set i1 (Cell.str p)).set i2 (Cell.str src)).set i3
          (Cell.str fed)).set i4 (Cell.str "v1")).set i5 (Cell.str now)) "source_file" =
        Cell.str src ∧
     getAt cols (((((base.set i1 (Cell.str p)).set i2 (Cell.str src)).set i3
          (Cell.str fed)).set i4 (Cell.str "v1")).set i5 (Cell.str now)) "federation" =
        Cell.str fed ∧
     getAt cols (((((base.set i1 (Cell.str p)).set i2 (Cell.str src)).set i3
          (Cell.str fed)).set i4 (Cell.str "v1")).set i5 (Cell.str now)) "schema_version" =
        Cell.str "v1" ∧
     getAt cols (((((base.set i1 (Cell.str p)).set i2 (Cell.str src)).set i3
          (Cell.str fed)).set i4 (Cell.str "v1")).set i5 (Cell.str now)) "extraction_ts" =
        Cell.str now) ∧
    (∀ c, c ∉ PROVENANCE_COLUMNS →
      getAt cols (((((base.set i1 (Cell.str p)).set i2 (Cell.str src)).set i3
          (Cell.str fed)).set i4 (Cell.str "v1")).set i5 (Cell.str now)) c =
        getAt cols base c) := by
  have l1 : (base.set i1 (Cell.str p)).length = cols.length := by
    rw [List.length_set]; exact hlen
  have l2 : ((base.set i1 (Cell.str p)).set i2 (Cell.str src)).length = cols.length := by
    rw [List.length_set]; exact l1
  have l3 : (((base.set i1 (Cell.str p)).set i2 (Cell.str src)).set i3
      (Cell.str fed)).length = cols.length := by
    rw [List.length_set]; exact l2
  have l4 : ((((base.set i1 (Cell.str p)).set i2 (Cell.str src)).set i3
      (Cell.str fed)).set i4 (Cell.str "v1")).length = cols.length := by
    rw [List.length_set]; exact l3
  refine ⟨⟨?_, ?_, ?_, ?_, ?_⟩, ?_⟩
  · rw [getAt_set_other cols _ "extraction_ts" "snapshot_period" i5 _ h5 (by decide),
      getAt_set_other cols _ "schema_version" "snapshot_period" i4 _ h4 (by decide),
      getAt_set_other cols _ "federation" "snapshot_period" i3 _ h3 (by decide),
      getAt_set_other cols _ "source_file" "snapshot_period" i2 _ h2 (by decide)]
    exact getAt_set_self cols base "snapshot_period" i1 _ h1 hlen
  · rw [getAt_set_other cols _ "extraction_ts" "source_file" i5 _ h5 (by decide),
      getAt_set_other cols _ "schema_version" "source_file" i4 _ h4 (by decide),
      getAt_set_other cols _ "federation" "source_file" i3 _ h3 (by decide)]
    exact getAt_set_self cols _ "source_file" i2 _ h2 l1
  · rw [getAt_set_other cols _ "extraction_ts" "federation" i5 _ h5 (by decide),
      getAt_set_other cols _ "schema_version" "federation" i4 _ h4 (by decide)]
    exact getAt_set_self cols _ "federation" i3 _ h3 l2
  · rw [getAt_set_other cols _ "extraction_ts" "schema_version" i5 _ h5 (by decide)]
    exact getAt_set_self cols _ "schema_version" i4 _ h4 l3
  · exact getAt_set_self cols _ "extraction_ts" i5 _ h5 l4
  · intro c hc
    simp only [PROVENANCE_COLUMNS, List.mem_cons, List.not_mem_nil, or_false, not_or] at hc
    obtain ⟨n1, n2, n3, n4, n5⟩ := hc
    rw [getAt_set_other cols _ "extraction_ts" c i5 _ h5 n5,
      getAt_set_other cols _ "schema_version" c i4 _ h4 n4,
      getAt_set_other cols _ "federation" c i3 _ h3 n3,
      getAt_set_other cols _ "source_file" c i2 _ h2 n2,
      getAt_set_other cols _ "snapshot_period" c i1 _ h1 n1]

lemma setCol_eq_of_idx (df : DF) (c : String) (f : List Cell → Cell) (i : Nat)
    (hi : colIdx c df.cols = some i) :
    setCol df c f = ⟨df.cols, df.rows.map fun r => r.set i (f r)⟩ := by
  rw [setCol, hi]

lemma packExtras_of_empty (df2 : DF) (h : (extrasOf df2.cols).isEmpty = true) :
    packExtras df2 = df2 := by
  rw [packExtras, if_pos h]

lemma packExtras_of_nonempty (df2 : DF) (h : (extrasOf df2.cols).isEmpty = false) :
    packExtras df2 = setCol df2 "raw_extra_json" fun r =>
      Cell.obj ((extrasOf df2.cols).map fun c => (c, fillnaCell (getAt df2.cols r c))) := by
  rw [packExtras, if_neg (by rw [h]; exact Bool.false_ne_true)]

set_option maxHeartbeats 3000000 in
lemma canonical_nodup : CANONICAL_COLUMNS.Nodup := by decide

lemma resolvedOf_eq (cols : List String) : resolvedOf cols = cols.map fun col =>
    match COLUMN_ALIASES.lookup (to_snake_case col) with
    | some canonical => canonical
    | none => to_snake_case col := rfl

lemma resolvedOf_length (cols : List String) : (resolvedOf cols).length = cols.length := by
  rw [resolvedOf_eq]
  exact List.length_map _ _

/-- One row after the canonical-fill loop: the original cells followed by
one null per appended canonical column. -/
def fillRow (cols : List String) (r : List Cell) : List Cell :=
  r ++ List.replicate
    (CANONICAL_COLUMNS.filter fun c => !((resolvedOf cols).contains c)).length Cell.null

/-- The frame after rename and canonical fill. -/
def filledDF (df : DF) : DF := ⟨mutColsOf df.cols, df.rows.map (fillRow df.cols)⟩

lemma fillRow_length (cols : List String) (r : List Cell) (h : r.length = cols.length) :
    (fillRow cols r).length = (mutColsOf cols).length := by
  rw [fillRow, List.length_append, List.length_replicate, mutColsOf, List.length_append, h]
  rw [resolvedOf_length]

set_option maxHeartbeats 4000000 in
/-- Full evaluation of one `normalize_chunk` call: the mutated frame as a
per-row transformation `F` of the input rows, the standardized frame as
the canonical projection of the mutated rows, and the named reads of the
transformed rows (provenance stamps, packed extras, null fill). -/
lemma normalize_chunk_eval (df : DF) (p src fed now : String)
    (hw : ∀ r ∈ df.rows, r.length = df.cols.length) :
    ∃ F : List Cell → List Cell,
      (normalize_chunk df p src fed now).mutated = ⟨mutColsOf df.cols, df.rows.map F⟩ ∧
      (normalize_chunk df p src fed now).standardized =
        ⟨CANONICAL_COLUMNS, (df.rows.map F).map fun r =>
          CANONICAL_COLUMNS.map fun c => astypeStringCell (getAt (mutColsOf df.cols) r c)⟩ ∧
      ∀ r ∈ df.rows,
        ((getAt (mutColsOf df.cols) (F r) "snapshot_period" = Cell.str p ∧
          getAt (mutColsOf df.cols) (F r) "source_file" = Cell.str src ∧
          getAt (mutColsOf df.cols) (F r) "federation" = Cell.str fed ∧
          getAt (mutColsOf df.cols) (F r) "schema_version" = Cell.str "v1" ∧
          getAt (mutColsOf df.cols) (F r) "extraction_ts" = Cell.str now) ∧
         (extrasOfR df.cols ≠ [] →
           getAt (mutColsOf df.cols) (F r) "raw_extra_json" =
             Cell.obj ((extrasOfR df.cols).map fun c =>
               (c, fillnaCell (getAt (resolvedOf df.cols) r c)))) ∧
         (∀ c, c ∉ resolvedOf df.cols → c ∉ PROVENANCE_COLUMNS → c ≠ "raw_extra_json" →
           getAt (mutColsOf df.cols) (F r) c = Cell.null)) := by
  have hnodC : CANONICAL_COLUMNS.Nodup := canonical_nodup
  have hreslen : (resolvedOf df.cols).length = df.cols.length := resolvedOf_length df.cols
  have h2 : addMissingCanonical ⟨resolvedOf df.cols, df.rows⟩ = filledDF df := by
    rw [addMissingCanonical]
    exact addMissing_foldl CANONICAL_COLUMNS hnodC ⟨resolvedOf df.cols, df.rows⟩
  have hrlen : ∀ r ∈ df.rows, (fillRow df.cols r).length = (mutColsOf df.cols).length :=
    fun r hr => fillRow_length df.cols r (hw r hr)
  obtain ⟨i1, hi1⟩ := colIdx_isSome_of_mem _ "snapshot_period" (mem_mutCols df.cols _ (by decide))
  obtain ⟨i2, hi2⟩ := colIdx_isSome_of_mem _ "source_file" (mem_mutCols df.cols _ (by decide))
  obtain ⟨i3, hi3⟩ := colIdx_isSome_of_mem _ "federation" (mem_mutCols df.cols _ (by decide))
  obtain ⟨i4, hi4⟩ := colIdx_isSome_of_mem _ "schema_version" (mem_mutCols df.cols _ (by decide))
  obtain ⟨i5, hi5⟩ := colIdx_isSome_of_mem _ "extraction_ts" (mem_mutCols df.cols _ (by decide))
  have hm0 : (normalize_chunk df p src fed now).mutated =
      setCol (setCol (setCol (setCol (setCol (packExtras (addMissingCanonical
          ⟨resolvedOf df.cols, df.rows⟩)) "snapshot_period" fun _ => Cell.str p)
        "source_file" fun _ => Cell.str src) "federation" fun _ => Cell.str fed)
        "schema_version" fun _ => Cell.str "v1") "extraction_ts" fun _ => Cell.str now := by
    simp only [normalize_chunk, resolvedOf]
  have hstd : (normalize_chunk df p src fed now).standardized =
      ⟨CANONICAL_COLUMNS, (normalize_chunk df p src fed now).mutated.rows.map fun r =>
        CANONICAL_COLUMNS.map fun c =>
          astypeStringCell (getAt (normalize_chunk df p src fed now).mutated.cols r c)⟩ := by
    simp only [normalize_chunk]
  rw [h2] at hm0
  by_cases hE : extrasOfR df.cols = []
  · -- no extras: the pack step is the identity
    have hEmB : (extrasOf (mutColsOf df.cols)).isEmpty = true := by
      rw [extrasOf_mutCols, hE]
      rfl
    rw [packExtras_of_empty (filledDF df) hEmB] at hm0
    rw [setCol_eq_of_idx (filledDF df) "snapshot_period" (fun _ => Cell.str p) i1 hi1] at hm0
    rw [setCol_eq_of_idx _ "source_file" (fun _ => Cell.str src) i2 hi2] at hm0
    rw [setCol_eq_of_idx _ "federation" (fun _ => Cell.str fed) i3 hi3] at hm0
    rw [setCol_eq_of_idx _ "schema_version" (fun _ => Cell.str "v1") i4 hi4] at hm0
    rw [setCol_eq_of_idx _ "extraction_ts" (fun _ => Cell.str now) i5 hi5] at hm0
    rw [show (filledDF df).rows = df.rows.map (fillRow df.cols) from rfl] at hm0
    simp only [List.map_map] at hm0
    refine ⟨_, hm0, ?_, ?_⟩
    · rw [hstd, hm0]
      rfl
    · intro r hr
      have heval := provenance_sets_getAt (mutColsOf df.cols) (fillRow df.cols r)
        i1 i2 i3 i4 i5 p src fed now hi1 hi2 hi3 hi4 hi5 (hrlen r hr)
      refine ⟨heval.1, fun hne => absurd hE hne, ?_⟩
      intro c hcr hcp hcraw
      have hpeel := heval.2 c hcp
      refine Eq.trans hpeel ?_
      exact getAt_append_nulls (resolvedOf df.cols) _ r c hcr
        (by rw [hreslen]; exact hw r hr)
  · -- extras exist: the pack step writes the serialized payload
    have hEmB : (extrasOf (mutColsOf df.cols)).isEmpty = false := by
      rw [extrasOf_mutCols]
      cases hb : (extrasOfR df.cols).isEmpty
      · rfl
      · exact absurd (List.isEmpty_iff.mp hb) hE
    obtain ⟨iR, hiR⟩ := colIdx_isSome_of_mem _ "raw_extra_json" (mem_mutCols df.cols _ (by decide))
    rw [packExtras_of_nonempty (filledDF df) hEmB] at hm0
    rw [setCol_eq_of_idx (filledDF df) "raw_extra_json"
      (fun r => Cell.obj ((extrasOf (filledDF df).cols).map fun c =>
        (c, fillnaCell (getAt (filledDF df).cols r c)))) iR hiR] at hm0
    rw [setCol_eq_of_idx _ "snapshot_period" (fun _ => Cell.str p) i1 hi1] at hm0
    rw [setCol_eq_of_idx _ "source_file" (fun _ => Cell.str src) i2 hi2] at hm0
    rw [setCol_eq_of_idx _ "federation" (fun _ => Cell.str fed) i3 hi3] at hm0
    rw [setCol_eq_of_idx _ "schema_version" (fun _ => Cell.str "v1") i4 hi4] at hm0
    rw [setCol_eq_of_idx _ "extraction_ts" (fun _ => Cell.str now) i5 hi5] at hm0
    rw [show (filledDF df).rows = df.rows.map (fillRow df.cols) from rfl] at hm0
    simp only [List.map_map] at hm0
    refine ⟨_, hm0, ?_, ?_⟩
    · rw [hstd, hm0]
      rfl
    · intro r hr
      have hbaselen : ((fillRow df.cols r).set iR
          (Cell.obj ((extrasOf (filledDF df).cols).map fun c =>
            (c, fillnaCell (getAt (filledDF df).cols (fillRow df.cols r) c))))).length =
          (mutColsOf df.cols).length := by
        rw [List.length_set]
        exact hrlen r hr
      have heval := provenance_sets_getAt (mutColsOf df.cols)
        ((fillRow df.cols r).set iR
          (Cell.obj ((extrasOf (filledDF df).cols).map fun c =>
            (c, fillnaCell (getAt (filledDF df).cols (fillRow df.cols r) c)))))
        i1 i2 i3 i4 i5 p src fed now hi1 hi2 hi3 hi4 hi5 hbaselen
      refine ⟨heval.1, ?_, ?_⟩
      · intro _
        have hpeel := heval.2 "raw_extra_json" (by decide)
        refine Eq.trans hpeel ?_
        have hself := getAt_set_self (mutColsOf df.cols) (fillRow df.cols r) "raw_extra_json"
          iR (Cell.obj ((extrasOf (filledDF df).cols).map fun c =>
            (c, fillnaCell (getAt (filledDF df).cols (fillRow df.cols r) c))))
          hiR (hrlen r hr)
        refine Eq.trans hself ?_
        rw [show extrasOf (filledDF df).cols = extrasOfR df.cols from extrasOf_mutCols df.cols]
        refine congrArg Cell.obj (List.map_congr_left fun c hc => ?_)
        have hcres : c ∈ resolvedOf df.cols := (List.mem_filter.mp hc).1
        refine congrArg (fun v => (c, fillnaCell v)) ?_
        exact getAt_append_keep (resolvedOf df.cols) _ r _ c hcres
          (by rw [hreslen]; exact hw r hr)
      · intro c hcr hcp hcraw
        have hpeel := heval.2 c hcp
        refine Eq.trans hpeel ?_
        have hother := getAt_set_other (mutColsOf df.cols) (fillRow df.cols r)
          "raw_extra_json" c iR
          (Cell.obj ((extrasOf (filledDF df).cols).map fun d =>
            (d, fillnaCell (getAt (filledDF df).cols (fillRow df.cols r) d))))
          hiR hcraw
        refine Eq.trans hother ?_
        exact getAt_append_nulls (resolvedOf df.cols) _ r c hcr
          (by rw [hreslen]; exact hw r hr)

/-- Deserializing the catch-all payload and reading one key (the
`json.loads(...)["key"]` access on the serialized record). -/
def jsonLookup : Cell → String → Option Cell
  | Cell.obj kvs, c => kvs.lookup c
  | _, _ => none

/-- The keys of the deserialized catch-all payload. -/
def jsonKeys : Cell → List String
  | Cell.obj kvs => kvs.map Prod.fst
  | _ => []

/-- C8: on any input batch (empty batches included) whose resolved headers
are pairwise distinct, the canonical batch returned by `normalize_chunk`
has exactly the canonical column set in its fixed order; it has one output
row per input row; every value is a text representation (null, a string,
or the serialized catch-all payload — never a raw number); every canonical
column absent from the input — other than the stamped provenance fields
and the catch-all field, which receive computed values — is filled with
null; and the five provenance fields are non-null on every row, the
extraction timestamp being the same single value `now` for all rows of the
batch. -/
theorem normalize_chunk_invariants (df : DF) (p src fed now : String)
    (hw : ∀ r ∈ df.rows, r.length = df.cols.length)
    (_hnd : (resolvedOf df.cols).Nodup) :
    (normalize_chunk df p src fed now).standardized.cols = CANONICAL_COLUMNS ∧
    (normalize_chunk df p src fed now).standardized.rows.length = df.rows.length ∧
    (∀ r ∈ (normalize_chunk df p src fed now).standardized.rows,
      r.length = CANONICAL_COLUMNS.length ∧ ∀ cell ∈ r, isTextualCell cell = true) ∧
    (∀ c, c ∈ CANONICAL_COLUMNS → c ∉ resolvedOf df.cols → c ∉ PROVENANCE_COLUMNS →
      c ≠ "raw_extra_json" →
      ∀ r ∈ (normalize_chunk df p src fed now).standardized.rows,
        getAt CANONICAL_COLUMNS r c = Cell.null) ∧
    (∀ r ∈ (normalize_chunk df p src fed now).standardized.rows,
      getAt CANONICAL_COLUMNS r "snapshot_period" = Cell.str p ∧
      getAt CANONICAL_COLUMNS r "source_file" = Cell.str src ∧
      getAt CANONICAL_COLUMNS r "federation" = Cell.str fed ∧
      getAt CANONICAL_COLUMNS r "schema_version" = Cell.str "v1" ∧
      getAt CANONICAL_COLUMNS r "extraction_ts" = Cell.str now) := by
  obtain ⟨F, hmut, hstd, hrows⟩ := normalize_chunk_eval df p src fed now hw
  rw [hstd]
  refine ⟨rfl, by simp, ?_, ?_, ?_⟩
  · intro r hr
    obtain ⟨r1, hr1, hr1eq⟩ := List.mem_map.mp hr
    obtain ⟨r0, hr0, hr0eq⟩ := List.mem_map.mp hr1
    subst hr0eq
    subst hr1eq
    refine ⟨by simp, ?_⟩
    intro cell hcell
    obtain ⟨c, _, hceq⟩ := List.mem_map.mp hcell
    rw [← hceq]
    exact astypeStringCell_textual _
  · intro c hcC hcr hcp hcraw r hr
    obtain ⟨r1, hr1, hr1eq⟩ := List.mem_map.mp hr
    obtain ⟨r0, hr0, hr0eq⟩ := List.mem_map.mp hr1
    subst hr0eq
    subst hr1eq
    rw [getAt_map CANONICAL_COLUMNS _ c hcC]
    rw [(hrows r0 hr0).2.2 c hcr hcp hcraw]
    rfl
  · intro r hr
    obtain ⟨r1, hr1, hr1eq⟩ := List.mem_map.mp hr
    obtain ⟨r0, hr0, hr0eq⟩ := List.mem_map.mp hr1
    subst hr0eq
    subst hr1eq
    obtain ⟨⟨e1, e2, e3, e4, e5⟩, _, _⟩ := hrows r0 hr0
    refine ⟨?_, ?_, ?_, ?_, ?_⟩ <;>
      rw [getAt_map CANONICAL_COLUMNS _ _ (by decide)]
    · rw [e1]; rfl
    · rw [e2]; rfl
    · rw [e3]; rfl
    · rw [e4]; rfl
    · rw [e5]; rfl

/-- Witness for the C8 theorem on a one-row, one-column frame. -/
theorem normalize_chunk_invariants_witness :
    (normalize_chunk ⟨["id"], [[Cell.str "1"]]⟩ "2024" "f.zip" "09" "T0").standardized.cols =
      CANONICAL_COLUMNS :=
  (normalize_chunk_invariants ⟨["id"], [[Cell.str "1"]]⟩ "2024" "f.zip" "09" "T0"
    (by decide) (by decide)).1

/-- C9: `normalize_chunk` mutates the caller's DataFrame in place — the
embedding passes that state explicitly as `mutated`.  After the call the
caller's object has its column names reassigned to the resolved canonical
names (its first columns, in order), followed by the canonical columns the
input lacked; the five provenance columns hold the stamped values on every
row; when extras exist the catch-all column holds the serialized record of
exactly the extras columns; and the returned canonical batch is the
canonical projection of this mutated object (so the original column names
are no longer those of the caller's object). -/
theorem normalize_chunk_mutates_in_place (df : DF) (p src fed now : String)
    (hw : ∀ r ∈ df.rows, r.length = df.cols.length)
    (_hnd : (resolvedOf df.cols).Nodup) :
    (normalize_chunk df p src fed now).mutated.cols =
      resolvedOf df.cols ++
        (CANONICAL_COLUMNS.filter fun c => !((resolvedOf df.cols).contains c)) ∧
    (normalize_chunk df p src fed now).mutated.rows.length = df.rows.length ∧
    (∀ r ∈ (normalize_chunk df p src fed now).mutated.rows,
      getAt (normalize_chunk df p src fed now).mutated.cols r "snapshot_period" =
          Cell.str p ∧
      getAt (normalize_chunk df p src fed now).mutated.cols r "source_file" = Cell.str src ∧
      getAt (normalize_chunk df p src fed now).mutated.cols r "federation" = Cell.str fed ∧
      getAt (normalize_chunk df p src fed now).mutated.cols r "schema_version" =
          Cell.str "v1" ∧
      getAt (normalize_chunk df p src fed now).mutated.cols r "extraction_ts" =
          Cell.str now) ∧
    (extrasOfR df.cols ≠ [] →
      ∀ r ∈ (normalize_chunk df p src fed now).mutated.rows,
        jsonKeys (getAt (normalize_chunk df p src fed now).mutated.cols r
          "raw_extra_json") = extrasOfR df.cols) ∧
    (normalize_chunk df p src fed now).standardized =
      ⟨CANONICAL_COLUMNS, (normalize_chunk df p src fed now).mutated.rows.map fun r =>
        CANONICAL_COLUMNS.map fun c =>
          astypeStringCell (getAt (normalize_chunk df p src fed now).mutated.cols r c)⟩ := by
  obtain ⟨F, hmut, hstd, hrows⟩ := normalize_chunk_eval df p src fed now hw
  refine ⟨?_, ?_, ?_, ?_, ?_⟩
  · rw [hmut, mutColsOf]
  · rw [hmut]
    simp
  · intro r hr
    rw [hmut] at hr
    obtain ⟨r0, hr0, hr0eq⟩ := List.mem_map.mp hr
    subst hr0eq
    rw [hmut]
    exact (hrows r0 hr0).1
  · intro hne r hr
    rw [hmut] at hr
    obtain ⟨r0, hr0, hr0eq⟩ := List.mem_map.mp hr
    subst hr0eq
    rw [hmut]
    rw [show getAt (⟨mutColsOf df.cols, df.rows.map F⟩ : DF).cols (F r0) "raw_extra_json" =
      getAt (mutColsOf df.cols) (F r0) "raw_extra_json" from rfl]
    rw [(hrows r0 hr0).2.1 hne]
    rw [jsonKeys, List.map_map]
    rw [show (Prod.fst ∘ fun c => (c, fillnaCell (getAt (resolvedOf df.cols) r0 c))) = id
      from funext fun c => rfl]
    exact List.map_id _
  · rw [hmut]
    exact hstd

/-- Witness for the C9 theorem on a frame with one extra column. -/
theorem normalize_chunk_mutates_in_place_witness :
    (normalize_chunk ⟨["id", "extra_field"], [[Cell.str "1", Cell.str "x"]]⟩
        "2024" "f.zip" "09" "T0").mutated.cols =
      resolvedOf ["id", "extra_field"] ++
        (CANONICAL_COLUMNS.filter fun c =>
          !((resolvedOf ["id", "extra_field"]).contains c)) :=
  (normalize_chunk_mutates_in_place ⟨["id", "extra_field"], [[Cell.str "1", Cell.str "x"]]⟩
    "2024" "f.zip" "09" "T0" (by decide) (by decide)).1

/-- C2 (amended): for every batch with at least one non-canonical column
(and pairwise-distinct resolved headers), `normalize_chunk` packs all
non-canonical columns per-row into the serialized catch-all field; the
resolved name of every non-canonical column is recoverable from the field
(its key set is exactly the extras, in order), and every value is
recoverable after the `fillna("")` coercion the code applies before
serializing: a non-null value deserializes to itself, a null deserializes
to the empty string (column names are recoverable as their resolved forms,
not the raw header spellings). -/
theorem normalize_chunk_extras_roundtrip (df : DF) (p src fed now : String)
    (hw : ∀ r ∈ df.rows, r.length = df.cols.length)
    (_hnd : (resolvedOf df.cols).Nodup)
    (hne : extrasOfR df.cols ≠ []) :
    ∀ i r, df.rows.get? i = some r →
      jsonKeys (getAt CANONICAL_COLUMNS
          (((normalize_chunk df p src fed now).standardized.rows.get? i).getD [])
          "raw_extra_json") = extrasOfR df.cols ∧
      ∀ c ∈ extrasOfR df.cols,
        jsonLookup (getAt CANONICAL_COLUMNS
            (((normalize_chunk df p src fed now).standardized.rows.get? i).getD [])
            "raw_extra_json") c =
          some (fillnaCell (getAt (resolvedOf df.cols) r c)) := by
  obtain ⟨F, hmut, hstd, hrows⟩ := normalize_chunk_eval df p src fed now hw
  intro i r hir
  have hrmem : r ∈ df.rows := List.get?_mem hir
  have hget : (normalize_chunk df p src fed now).standardized.rows.get? i =
      some (CANONICAL_COLUMNS.map fun c =>
        astypeStringCell (getAt (mutColsOf df.cols) (F r) c)) := by
    rw [hstd]
    show ((df.rows.map F).map fun r => CANONICAL_COLUMNS.map fun c =>
      astypeStringCell (getAt (mutColsOf df.cols) r c)).get? i = _
    rw [List.get?_map, List.get?_map, hir]
    rfl
  rw [hget]
  have hraw : getAt CANONICAL_COLUMNS
      (CANONICAL_COLUMNS.map fun c => astypeStringCell (getAt (mutColsOf df.cols) (F r) c))
      "raw_extra_json" =
      Cell.obj ((extrasOfR df.cols).map fun c =>
        (c, fillnaCell (getAt (resolvedOf df.cols) r c))) := by
    rw [getAt_map CANONICAL_COLUMNS _ _ (by decide)]
    rw [(hrows r hrmem).2.1 hne]
    rfl
  constructor
  · rw [show (some (CANONICAL_COLUMNS.map fun c =>
      astypeStringCell (getAt (mutColsOf df.cols) (F r) c))).getD [] =
      CANONICAL_COLUMNS.map fun c => astypeStringCell (getAt (mutColsOf df.cols) (F r) c)
      from rfl, hraw, jsonKeys, List.map_map]
    rw [show (Prod.fst ∘ fun c => (c, fillnaCell (getAt (resolvedOf df.cols) r c))) = id
      from funext fun c => rfl]
    exact List.map_id _
  · intro c hc
    rw [show (some (CANONICAL_COLUMNS.map fun c =>
      astypeStringCell (getAt (mutColsOf df.cols) (F r) c))).getD [] =
      CANONICAL_COLUMNS.map fun c => astypeStringCell (getAt (mutColsOf df.cols) (F r) c)
      from rfl, hraw, jsonLookup]
    exact lookup_map_self (extrasOfR df.cols) _ c hc

/-- Witness for the C2 theorem: a one-row frame with an extra column whose
value round-trips through the catch-all field. -/
theorem normalize_chunk_extras_roundtrip_witness :
    jsonLookup (getAt CANONICAL_COLUMNS
        (((normalize_chunk ⟨["id", "extra_field"], [[Cell.str "1", Cell.str "x"]]⟩
            "2024" "f.zip" "09" "T0").standardized.rows.get? 0).getD [])
        "raw_extra_json") "extra_field" =
      some (fillnaCell (getAt (resolvedOf ["id", "extra_field"])
        [Cell.str "1", Cell.str "x"] "extra_field")) :=
  ((normalize_chunk_extras_roundtrip ⟨["id", "extra_field"],
      [[Cell.str "1", Cell.str "x"]]⟩ "2024" "f.zip" "09" "T0"
      (by decide) (by decide) (by decide) 0 [Cell.str "1", Cell.str "x"] rfl).2
    "extra_field" (by decide))

/-- C2 counterexample: the code applies `fillna("")` before serializing, so
a null value in a non-canonical column deserializes to the empty string,
not to the original null — the round-trip is not lossless as claimed. -/
theorem normalize_chunk_roundtrip_claim_false :
    jsonLookup (getAt CANONICAL_COLUMNS
        (((normalize_chunk ⟨["id", "extra_field"], [[Cell.str "1", Cell.null]]⟩
            "2024" "f.zip" "09" "T0").standardized.rows.get? 0).getD [])
        "raw_extra_json") "extra_field" = some (Cell.str "") ∧
    Cell.str "" ≠ Cell.null := by
  constructor
  · rfl
  · exact fun h => Cell.noConfusion h

/-! ## Pipeline orchestration — src/quacky_denue/pipeline.py, run_pipeline

Discovery, download, archive reading and storage are external effects; they
enter as an explicit environment of oracles.  The per-link loop of
`run_pipeline` (lines 40–84) is embedded as a fold over the discovered
links, with each link processed by `processOneLink` which mirrors the
`try` body and its `except` clause. -/

/-- `FileProcessingStats` — src/quacky_denue/models.py. -/
structure FileProcessingStats : Type where
  source_file : String
  federation : String
  snapshot_period : String
  total_rows : Nat
  written_rows : Nat
  missing_required_columns : List String
  unknown_columns : List String
  errors : List String
  deriving DecidableEq, Repr

/-- `PipelineReport` — src/quacky_denue/models.py (timestamps carried as
opaque strings; the clock is an external effect). -/
structure PipelineReport : Type where
  started_at : String
  finished_at : Option String
  discovered_links : Nat
  selected_links : Nat
  downloaded_files : Nat
  processed_files : Nat
  expected_files : Nat
  total_rows : Nat
  written_rows : Nat
  file_reports : List FileProcessingStats
  errors : List String
  deriving DecidableEq, Repr

/-- The effectful collaborators of the per-link loop: `download_zip`,
`infer_snapshot_period`, the chunk stream of `iter_denue_chunks` (whose
creation and each element can fail), `storage.write`, and the extraction
clock read by `normalize_chunk`. -/
structure PipelineEnv : Type where
  download_zip : DownloadLink → Except String String
  infer_snapshot_period : String → Except String String
  iter_denue_chunks : String → Except String (List (Except String DF))
  write : DF → String → Except String Nat
  now : String

/-- Character allowed in a table name (`[a-z0-9_]`). -/
def isTableSafeChar (c : Char) : Bool :=
  decide (97 ≤ c.toNat ∧ c.toNat ≤ 122) || decide (48 ≤ c.toNat ∧ c.toNat ≤ 57) || c == '_'

/-- `TABLE_SAFE.sub("_", ·)`: collapse each run of characters outside
`[a-z0-9_]` to a single underscore. -/
def collapseUnsafe : Bool → List Char → List Char
  | _, [] => []
  | prev, c :: rest =>
    if isTableSafeChar c then c :: collapseUnsafe false rest
    else if prev then collapseUnsafe true rest
    else '_' :: collapseUnsafe true rest

/-- `_safe_table_name(snapshot_period)`: lower, sanitize, strip edge
underscores, prefix with the fixed namespace; an empty result maps to the
literal `unknown` table. -/
def safeTableName (snapshot_period : String) : String :=
  let cleaned := stripUnderscores (collapseUnsafe false (pyLower snapshot_period).data)
  if cleaned.isEmpty then "denue_unknown" else "denue_" ++ String.mk cleaned

/-- `file_stats.errors.append(str(exc))`. -/
def recordError (fs : FileProcessingStats) (e : String) : FileProcessingStats :=
  { fs with errors := fs.errors ++ [e] }

/-- The inner `for chunk in iter_denue_chunks(...)` loop: normalize, merge
the missing/unknown column sets, count rows, write; a read or write error
aborts the loop with the current stats and the raised error. -/
def chunkLoop (env : PipelineEnv) (snapshot_period zip_path federation table_name : String) :
    FileProcessingStats → List (Except String DF) → FileProcessingStats × Option String
  | fs, [] => (fs, none)
  | fs, Except.error e :: _ => (fs, some e)
  | fs, Except.ok chunk :: rest =>
    let nr := normalize_chunk chunk snapshot_period zip_path federation env.now
    let fs1 := { fs with
      missing_required_columns :=
        pySort ((fs.missing_required_columns ++ nr.missing_required).dedup),
      unknown_columns := pySort ((fs.unknown_columns ++ nr.unknown_columns).dedup),
      total_rows := fs.total_rows + nr.standardized.rows.length }
    match env.write nr.standardized table_name with
    | Except.error e => (fs1, some e)
    | Except.ok written =>
      chunkLoop env snapshot_period zip_path federation table_name
        { fs1 with written_rows := fs1.written_rows + written } rest

/-- Outcome of processing one link: the final `FileProcessingStats`, the
increments to `downloaded_files` and `processed_files`, and the caught
exception when one was raised. -/
structure LinkOutcome : Type where
  stats : FileProcessingStats
  downloadedInc : Nat
  processedInc : Nat
  err : Option String
  deriving DecidableEq, Repr

/-- The `try` body of the per-link loop with its `except` clause: any
failure in download, period inference, chunk read, or write is caught,
appended to the link's stats, and reported; `processed_files` is counted
only when the whole body ran. -/
def processOneLink (env : PipelineEnv) (link : DownloadLink) : LinkOutcome :=
  match env.download_zip link with
  | Except.error e =>
    ⟨recordError ⟨link.href, link.federation, "unknown", 0, 0, [], [], []⟩ e, 0, 0, some e⟩
  | Except.ok zip_path =>
    match env.infer_snapshot_period zip_path with
    | Except.error e =>
      ⟨recordError ⟨zip_path, link.federation, "unknown", 0, 0, [], [], []⟩ e, 1, 0, some e⟩
    | Except.ok snapshot_period =>
      match env.iter_denue_chunks zip_path with
      | Except.error e =>
        ⟨recordError ⟨zip_path, link.federation, snapshot_period, 0, 0, [], [], []⟩ e,
          1, 0, some e⟩
      | Except.ok chunks =>
        match chunkLoop env snapshot_period zip_path link.federation
            (safeTableName snapshot_period)
            ⟨zip_path, link.federation, snapshot_period, 0, 0, [], [], []⟩ chunks with
        | (fs3, some e) => ⟨recordError fs3 e, 1, 0, some e⟩
        | (fs3, none) => ⟨fs3, 1, 1, none⟩

/-- One iteration of `for link in links` (report bookkeeping after the
`try`/`except`): counters, the run-level error message, and the appended
per-file stats. -/
def linkStep (env : PipelineEnv) (rep : PipelineReport) (link : DownloadLink) :
    PipelineReport :=
  let o := processOneLink env link
  { rep with
    downloaded_files := rep.downloaded_files + o.downloadedInc
    processed_files := rep.processed_files + o.processedInc
    errors := rep.errors ++ (match o.err with
      | some e => ["Failed file " ++ link.href ++ ": " ++ e]
      | none => [])
    total_rows := rep.total_rows + o.stats.total_rows
    written_rows := rep.written_rows + o.stats.written_rows
    file_reports := rep.file_reports ++ [o.stats] }

/-- The per-link loop of `run_pipeline`. -/
def run_pipeline_links (env : PipelineEnv) (links : List DownloadLink)
    (report : PipelineReport) : PipelineReport :=
  links.foldl (linkStep env) report

lemma processOneLink_err_mem (env : PipelineEnv) (link : DownloadLink) (e : String)
    (h : (processOneLink env link).err = some e) :
    e ∈ (processOneLink env link).stats.errors := by
  rw [processOneLink] at h ⊢
  split at h
  next e0 heq =>
    injection h with h
    subst h
    simp [recordError]
  next zip_path heq =>
    split at h
    next e0 heq2 =>
      injection h with h
      subst h
      simp [recordError]
    next snapshot_period heq2 =>
      split at h
      next e0 heq3 =>
        injection h with h
        subst h
        simp [recordError]
      next chunks heq3 =>
        split at h
        next fs3 e0 heq4 =>
          injection h with h
          subst h
          simp [recordError]
        next fs3 heq4 =>
          exact Option.noConfusion h

lemma run_links_errors_mono (env : PipelineEnv) :
    ∀ (links : List DownloadLink) (report : PipelineReport) (s : String),
      s ∈ report.errors → s ∈ (run_pipeline_links env links report).errors := by
  intro links
  induction links with
  | nil => intro report s h; exact h
  | cons a t ih =>
    intro report s h
    rw [run_pipeline_links, List.foldl_cons]
    refine ih (linkStep env report a) s ?_
    rw [linkStep]
    exact List.mem_append_left _ h

lemma run_links_file_reports (env : PipelineEnv) :
    ∀ (links : List DownloadLink) (report : PipelineReport),
      (run_pipeline_links env links report).file_reports =
        report.file_reports ++ links.map fun l => (processOneLink env l).stats := by
  intro links
  induction links with
  | nil => intro report; simp [run_pipeline_links]
  | cons a t ih =>
    intro report
    rw [run_pipeline_links, List.foldl_cons]
    rw [show (List.foldl (linkStep env) (linkStep env report a) t) =
      run_pipeline_links env t (linkStep env report a) from rfl]
    rw [ih (linkStep env report a)]
    rw [linkStep]
    rw [List.map_cons, List.append_assoc, List.singleton_append]

lemma run_links_msg (env : PipelineEnv) :
    ∀ (links : List DownloadLink) (report : PipelineReport) (l : DownloadLink),
      l ∈ links → ∀ e, (processOneLink env l).err = some e →
      ("Failed file " ++ l.href ++ ": " ++ e) ∈ (run_pipeline_links env links report).errors := by
  intro links
  induction links with
  | nil => intro report l hl; cases hl
  | cons a t ih =>
    intro report l hl e he
    rw [run_pipeline_links, List.foldl_cons]
    rw [show (List.foldl (linkStep env) (linkStep env report a) t) =
      run_pipeline_links env t (linkStep env report a) from rfl]
    rcases List.mem_cons.mp hl with hla | hlt
    · subst hla
      refine run_links_errors_mono env t (linkStep env report l) _ ?_
      rw [linkStep]
      simp only [he]
      exact List.mem_append_right _ (List.mem_singleton.mpr rfl)
    · exact ih (linkStep env report a) l hlt e he

/-- C1: for every environment, every discovered link list, and every
starting report, the per-link loop of `run_pipeline` appends exactly one
`FileProcessingStats` per link, in order, whether that link succeeded or
failed — no per-link exception terminates the loop — and whenever
processing a link raised, the exception string is recorded in that link's
stats and the `Failed file <href>: <exc>` message in the run report's
error list. -/
theorem run_pipeline_per_link_isolation (env : PipelineEnv) (links : List DownloadLink)
    (report : PipelineReport) :
    (run_pipeline_links env links report).file_reports =
      report.file_reports ++ (links.map fun l => (processOneLink env l).stats) ∧
    (∀ l ∈ links, ∀ e, (processOneLink env l).err = some e →
      e ∈ (processOneLink env l).stats.errors ∧
      ("Failed file " ++ l.href ++ ": " ++ e) ∈
        (run_pipeline_links env links report).errors) := by
  refine ⟨run_links_file_reports env links report, ?_⟩
  intro l hl e he
  exact ⟨processOneLink_err_mem env l e he, run_links_msg env links report l hl e he⟩

/-- Witness for the C1 theorem: a run over two links whose downloads fail
("boom") still appends both per-file stats and records both run-level
messages. -/
theorem run_pipeline_per_link_isolation_witness :
    ("Failed file h1: boom") ∈
      (run_pipeline_links
        ⟨fun _ => Except.error "boom", fun z => Except.ok z, fun _ => Except.ok [],
         fun _ _ => Except.ok 0, "T0"⟩
        [⟨"h1", "t1", "09"⟩, ⟨"h2", "t2", "10"⟩]
        ⟨"T0", none, 2, 2, 0, 0, 2, 0, 0, [], []⟩).errors :=
  ((run_pipeline_per_link_isolation
      ⟨fun _ => Except.error "boom", fun z => Except.ok z, fun _ => Except.ok [],
       fun _ _ => Except.ok 0, "T0"⟩
      [⟨"h1", "t1", "09"⟩, ⟨"h2", "t2", "10"⟩]
      ⟨"T0", none, 2, 2, 0, 0, 2, 0, 0, [], []⟩).2
    ⟨"h1", "t1", "09"⟩ (by simp) "boom" rfl).2

end QuackyDenue
